import Mathlib

/-!
Shallow embedding of `src/couckoo.py` (LSH near-duplicate image labeler).

Signatures are bit vectors (`List Bool`).  `np.packbits` packs a bit vector
into bytes, padding the last byte with zero bits; `np.unpackbits` expands every
stored byte back to 8 bits.  Python dicts preserve insertion order, so they are
modelled as association lists where a fresh key is appended at the end.
Similarity scores (Python floats obtained as exact integer quotients) are
modelled as rationals.
-/

namespace Couckoo

/-- Most-significant-bit-first value of a bit list (how `np.packbits` fills a byte). -/
def bitsToNat (bits : List Bool) : Nat :=
  bits.foldl (fun n b => 2 * n + (if b then 1 else 0)) 0

/-- Pack up to 8 bits into one byte, zero-padding on the right (`np.packbits`). -/
def packByte (bits : List Bool) : Nat :=
  bitsToNat (bits ++ List.replicate (8 - bits.length) false)

/-- Unpack one byte into its 8 bits, most significant first (`np.unpackbits`). -/
def unpackByte (n : Nat) : List Bool :=
  [n.testBit 7, n.testBit 6, n.testBit 5, n.testBit 4,
   n.testBit 3, n.testBit 2, n.testBit 1, n.testBit 0]

/-- `np.packbits`: pack a bit vector into bytes, 8 bits at a time, the last
byte zero-padded. -/
def pack : List Bool → List Nat
  | [] => []
  | [a] => [packByte [a]]
  | [a, b] => [packByte [a, b]]
  | [a, b, c] => [packByte [a, b, c]]
  | [a, b, c, d] => [packByte [a, b, c, d]]
  | [a, b, c, d, e] => [packByte [a, b, c, d, e]]
  | [a, b, c, d, e, f] => [packByte [a, b, c, d, e, f]]
  | [a, b, c, d, e, f, g] => [packByte [a, b, c, d, e, f, g]]
  | a :: b :: c :: d :: e :: f :: g :: h :: rest =>
      packByte [a, b, c, d, e, f, g, h] :: pack rest

/-- `np.unpackbits`: every stored byte expands to 8 bits. -/
def unpack (bytes : List Nat) : List Bool :=
  (bytes.map unpackByte).flatten

/-- Hamming distance: number of positions where two bit vectors differ
(`np.count_nonzero(x != y)` for equal-length arrays). -/
def hamming : List Bool → List Bool → Nat
  | a :: as, b :: bs => (if a = b then 0 else 1) + hamming as bs
  | _, _ => 0

/-- Insertion-ordered dict lookup (`d[k]` / `k in d`). -/
def dictGet? {β : Type} (k : String) : List (String × β) → Option β
  | [] => none
  | (k', v) :: rest => if k' = k then some v else dictGet? k rest

/-- Insertion-ordered dict update `d[k] = v`: overwrite in place, else append. -/
def dictInsert {β : Type} (k : String) (v : β) : List (String × β) → List (String × β)
  | [] => [(k, v)]
  | (k', v') :: rest =>
      if k' = k then (k, v) :: rest else (k', v') :: dictInsert k v rest

/-- Append `p` to the bucket stored under band key `key`, creating the bucket
if absent (`hash_buckets_list[i][key].append(p)`). -/
def bucketInsert (key : List Bool) (p : String) :
    List (List Bool × List String) → List (List Bool × List String)
  | [] => [(key, [p])]
  | (k', l) :: rest =>
      if k' = key then (k', l ++ [p]) :: rest else (k', l) :: bucketInsert key p rest

/-- The mutable state of `LSHProcessor`. -/
structure LSH where
  hash_size : Nat
  bands : Nat
  rows : Nat
  /-- one insertion-ordered bucket map per band -/
  hash_buckets_list : List (List (List Bool × List String))
  /-- `file_path ↦ np.packbits(signature)` -/
  signatures : List (String × List Nat)
  labels : List (String × Nat)
  label_counter : Nat
  similarity_scores : List (String × String × ℚ)

/-- `LSHProcessor.__init__(hash_size, bands)`. -/
def LSH.init (hash_size bands : Nat) : LSH :=
  { hash_size := hash_size
    bands := bands
    rows := hash_size ^ 2 / bands
    hash_buckets_list := List.replicate bands []
    signatures := []
    labels := []
    label_counter := 0
    similarity_scores := [] }

/-- `signature[i*rows : (i+1)*rows]` (Python slices clamp at the end). -/
def bandSlice (sig : List Bool) (rows i : Nat) : List Bool :=
  (sig.drop (i * rows)).take rows

/-- The loop `for i in range(self.bands)` of `add_signature`: insert
`file_path` into band `i`'s bucket keyed by that band's slice, for each band
in order (`i` starts at the given index). -/
def insertAllBands (sig : List Bool) (rows : Nat) (file_path : String) :
    Nat → List (List (List Bool × List String)) → List (List (List Bool × List String))
  | _, [] => []
  | i, bl :: rest =>
      bucketInsert (bandSlice sig rows i) file_path bl ::
        insertAllBands sig rows file_path (i + 1) rest

/-- `LSHProcessor.add_signature(file_path, signature)`; `none` models a `None`
signature, which is skipped. -/
def addSignature (st : LSH) (file_path : String) (signature : Option (List Bool)) : LSH :=
  match signature with
  | none => st
  | some sig =>
      { st with
        signatures := dictInsert file_path (pack sig) st.signatures
        hash_buckets_list := insertAllBands sig st.rows file_path 0 st.hash_buckets_list }

/-- `LSHProcessor.calculate_similarity(pair)`; the second component records
whether the `KeyError` branch ran (a diagnostic was logged). -/
def calculateSimilarityLog (st : LSH) (img_a img_b : String) :
    (String × String × ℚ) × Bool :=
  match dictGet? img_a st.signatures, dictGet? img_b st.signatures with
  | some sa, some sb =>
      let hd : Nat := hamming (unpack sa) (unpack sb)
      ((img_a, img_b, ((st.hash_size ^ 2 : ℚ) - hd) / (st.hash_size ^ 2 : ℚ)), false)
  | _, _ => ((img_a, img_b, 0), true)

/-- `LSHProcessor.calculate_similarity(pair)` (the returned triple). -/
def calculateSimilarity (st : LSH) (img_a img_b : String) : String × String × ℚ :=
  (calculateSimilarityLog st img_a img_b).1

/-- The two labeling `if`-statements of `process_similarities` acting on the
label dict and the label counter: if `img_a` has no label give it the fresh
counter value, then if `img_b` has no label give it `labels[img_a]`. -/
def linkLabels (labels : List (String × Nat)) (label_counter : Nat)
    (img_a img_b : String) : List (String × Nat) × Nat :=
  let p1 :=
    if (dictGet? img_a labels).isNone then
      (dictInsert img_a label_counter labels, label_counter + 1)
    else (labels, label_counter)
  if (dictGet? img_b p1.1).isNone then
    (dictInsert img_b ((dictGet? img_a p1.1).getD 0) p1.1, p1.2)
  else p1

/-- The body of the inner loop of `process_similarities` for one consecutive
pair `(image_a, image_b)`. -/
def processPair (threshold : ℚ) (collect_scores : Bool) (st : LSH)
    (pr : String × String) : LSH :=
  let r := calculateSimilarity st pr.1 pr.2
  if threshold ≤ r.2.2 then
    let p := linkLabels st.labels st.label_counter r.1 r.2.1
    { st with labels := p.1
              label_counter := p.2
              similarity_scores :=
                if collect_scores then st.similarity_scores ++ [r]
                else st.similarity_scores }
  else st

/-- The state effect of `processPair` when the pair passes the threshold
(no score collection): only the label dict and the counter change. -/
def linkPair (st : LSH) (pr : String × String) : LSH :=
  { st with labels := (linkLabels st.labels st.label_counter pr.1 pr.2).1
            label_counter := (linkLabels st.labels st.label_counter pr.1 pr.2).2 }

/-- One bucket of `process_similarities`: walk consecutive pairs of
`matched_imgs` when it holds more than one image. -/
def processBucket (threshold : ℚ) (collect_scores : Bool) (st : LSH)
    (matched_imgs : List String) : LSH :=
  if matched_imgs.length > 1 then
    (matched_imgs.zip matched_imgs.tail).foldl (processPair threshold collect_scores) st
  else st

/-- `LSHProcessor.process_similarities(threshold, collect_scores)`. -/
def processSimilarities (st : LSH) (threshold : ℚ) (collect_scores : Bool) : LSH :=
  st.hash_buckets_list.foldl
    (fun s hash_buckets =>
      hash_buckets.foldl (fun s' kv => processBucket threshold collect_scores s' kv.2) s)
    st

/-- One iteration of `_assign_labels_remaining_images` for `file_path = kv.1`. -/
def remStep (s : LSH) (kv : String × List Nat) : LSH :=
  if (dictGet? kv.1 s.labels).isNone then
    { s with labels := dictInsert kv.1 s.label_counter s.labels
             label_counter := s.label_counter + 1 }
  else s

/-- `LSHProcessor._assign_labels_remaining_images()`. -/
def assignRemaining (st : LSH) : LSH :=
  st.signatures.foldl remStep st

/-- `LSHProcessor.assign_labels(threshold)`: the resulting state (whose
`labels` field is the returned mapping). -/
def assignLabels (st : LSH) (threshold : ℚ) : LSH :=
  assignRemaining (processSimilarities st threshold false)

/-- A run over the core: construct the processor and perform the
`add_signature` calls in order (as `process_images` does). -/
def runAdds (hash_size bands : Nat) (adds : List (String × Option (List Bool))) : LSH :=
  adds.foldl (fun s a => addSignature s a.1 a.2) (LSH.init hash_size bands)

/-- The consecutive pairs `zip(matched_imgs, matched_imgs[1:])` of one bucket. -/
def bucketPairs (matched_imgs : List String) : List (String × String) :=
  matched_imgs.zip matched_imgs.tail

/-- All consecutive pairs visited by `process_similarities`, in visiting order. -/
def allPairs (bks : List (List (List Bool × List String))) : List (String × String) :=
  ((bks.map (fun band => (band.map (fun kv => bucketPairs kv.2)).flatten)).flatten)

/-- All bucket member lists visited by `process_similarities`, in visiting order. -/
def allBuckets (bks : List (List (List Bool × List String))) : List (List String) :=
  (bks.map (fun band => band.map (fun kv => kv.2))).flatten

/-- The ids of the `add_signature` calls that actually stored a signature. -/
def addedPaths (adds : List (String × Option (List Bool))) : List String :=
  adds.filterMap (fun a => a.2.map (fun _ => a.1))

/-- The single-bucket band map holding `ps` under the empty key (degenerate
`rows = 0` bucketing), or the empty map when nothing was inserted. -/
def bucketListOf (ps : List String) : List (List Bool × List String) :=
  if ps = [] then [] else [([], ps)]

/-- The extension filter of `get_image_files`:
`f.lower().endswith((".png", ".jpg", ".jpeg"))`. -/
def hasImageExt (f : String) : Bool :=
  f.toLower.endsWith ".png" || f.toLower.endsWith ".jpg" || f.toLower.endsWith ".jpeg"

/-- `get_image_files(input_dir)`.  `listing` is the external `os.listdir`
result, `none` modelling a missing directory (`FileNotFoundError`);
`Except.error` models the `ValueError` the function raises. -/
def get_image_files (input_dir : String) (listing : Option (List String)) :
    Except String (List String) :=
  match listing with
  | none => .error ("Directory " ++ input_dir ++ " does not exist")
  | some fs => .ok ((fs.filter hasImageExt).map (fun f => input_dir ++ "/" ++ f))

/-- `process_images(...)`: build the processor and add every file's signature
in order; `calculate_signature` is the external signature generator. -/
def process_images (hash_size bands : Nat)
    (calculate_signature : String → Option (List Bool)) (file_list : List String) : LSH :=
  file_list.foldl (fun s f => addSignature s f (calculate_signature f))
    (LSH.init hash_size bands)

/-- `find_duplicates(...)`: label mapping and similarity scores; a raised
`ValueError` (missing directory or no matching images) is caught and yields
`({}, [])`. -/
def find_duplicates (input_dir : String) (threshold : ℚ) (hash_size bands : Nat)
    (gen_socres : Bool) (listing : Option (List String))
    (calculate_signature : String → Option (List Bool)) :
    List (String × Nat) × List (String × String × ℚ) :=
  match get_image_files input_dir listing with
  | .error _ => ([], [])
  | .ok file_list =>
    if file_list.isEmpty then ([], [])
    else
      let lsh1 := assignLabels (process_images hash_size bands calculate_signature file_list)
        threshold
      if gen_socres then
        (lsh1.labels, (processSimilarities lsh1 threshold true).similarity_scores)
      else (lsh1.labels, [])

/-- A four-image run (`hash_size = 2`, `bands = 2`) in which band 0 links
`a`–`x` and `y`–`b` before band 1 visits the bucket `[a, b]`. -/
def cAdds : List (String × Option (List Bool)) :=
  [("a", some [false, false, false, false]),
   ("x", some [false, false, true, true]),
   ("y", some [true, true, false, true]),
   ("b", some [true, true, false, false])]

/-- A two-image run (`hash_size = 2`, `bands = 1`) with signatures at
hamming distance 1. -/
def wAdds : List (String × Option (List Bool)) :=
  [("a", some [true, false, true, false]),
   ("b", some [true, false, false, false])]

/-- A state with one label already assigned and the counter past it. -/
def stW : LSH :=
  { hash_size := 2
    bands := 1
    rows := 4
    hash_buckets_list := [[]]
    signatures := []
    labels := [("a", 0)]
    label_counter := 1
    similarity_scores := [] }

/-! ### Basic lemmas about packing and hamming distance -/

theorem unpackByte_packByte (bits : List Bool) (hlen : bits.length ≤ 8) :
    unpackByte (packByte bits) = bits ++ List.replicate (8 - bits.length) false := by
  match bits with
  | [] => decide
  | [a] => revert a; decide
  | [a, b] => revert a b; decide
  | [a, b, c] => revert a b c; decide
  | [a, b, c, d] => revert a b c d; decide
  | [a, b, c, d, e] => revert a b c d e; decide
  | [a, b, c, d, e, f] => revert a b c d e f; decide
  | [a, b, c, d, e, f, g] => revert a b c d e f g; decide
  | [a, b, c, d, e, f, g, h] => revert a b c d e f g h; decide
  | a :: b :: c :: d :: e :: f :: g :: h :: i :: rest =>
    simp only [List.length_cons] at hlen; omega

theorem unpack_cons (n : Nat) (ns : List Nat) :
    unpack (n :: ns) = unpackByte n ++ unpack ns := by
  simp [unpack]

theorem unpack_pack (s : List Bool) :
    unpack (pack s) = s ++ List.replicate ((8 - s.length % 8) % 8) false := by
  induction s using pack.induct with
  | case1 => rfl
  | case2 a =>
    rw [show pack [a] = [packByte [a]] from rfl, unpack_cons,
      unpackByte_packByte [a] (by simp)]
    simp [unpack]
  | case3 a b =>
    rw [show pack [a, b] = [packByte [a, b]] from rfl, unpack_cons,
      unpackByte_packByte [a, b] (by simp)]
    simp [unpack]
  | case4 a b c =>
    rw [show pack [a, b, c] = [packByte [a, b, c]] from rfl, unpack_cons,
      unpackByte_packByte [a, b, c] (by simp)]
    simp [unpack]
  | case5 a b c d =>
    rw [show pack [a, b, c, d] = [packByte [a, b, c, d]] from rfl, unpack_cons,
      unpackByte_packByte [a, b, c, d] (by simp)]
    simp [unpack]
  | case6 a b c d e =>
    rw [show pack [a, b, c, d, e] = [packByte [a, b, c, d, e]] from rfl, unpack_cons,
      unpackByte_packByte [a, b, c, d, e] (by simp)]
    simp [unpack]
  | case7 a b c d e f =>
    rw [show pack [a, b, c, d, e, f] = [packByte [a, b, c, d, e, f]] from rfl,
      unpack_cons, unpackByte_packByte [a, b, c, d, e, f] (by simp)]
    simp [unpack]
  | case8 a b c d e f g =>
    rw [show pack [a, b, c, d, e, f, g] = [packByte [a, b, c, d, e, f, g]] from rfl,
      unpack_cons, unpackByte_packByte [a, b, c, d, e, f, g] (by simp)]
    simp [unpack]
  | case9 a b c d e f g h rest ih =>
    rw [show pack (a :: b :: c :: d :: e :: f :: g :: h :: rest) =
        packByte [a, b, c, d, e, f, g, h] :: pack rest from rfl,
      unpack_cons, unpackByte_packByte [a, b, c, d, e, f, g, h] (by simp), ih]
    have hmod : (8 - (a :: b :: c :: d :: e :: f :: g :: h :: rest).length % 8) % 8 =
        (8 - rest.length % 8) % 8 := by
      simp only [List.length_cons]
      omega
    rw [hmod]
    simp [List.append_assoc]

theorem hamming_self (l : List Bool) : hamming l l = 0 := by
  induction l with
  | nil => rfl
  | cons a t ih => simp [hamming, ih]

theorem hamming_le (a b : List Bool) : hamming a b ≤ a.length := by
  induction a generalizing b with
  | nil => cases b <;> simp [hamming]
  | cons x xs ih =>
    cases b with
    | nil => simp [hamming]
    | cons y ys =>
      simp only [hamming, List.length_cons]
      have := ih ys
      split <;> omega

theorem hamming_append (a b c d : List Bool) (h : a.length = b.length) :
    hamming (a ++ c) (b ++ d) = hamming a b + hamming c d := by
  induction a generalizing b with
  | nil =>
    cases b with
    | nil => simp [hamming]
    | cons y ys => simp at h
  | cons x xs ih =>
    cases b with
    | nil => simp at h
    | cons y ys =>
      simp only [List.length_cons] at h
      simp only [List.cons_append, hamming, List.append_eq]
      rw [ih ys (by omega), Nat.add_assoc]

theorem hamming_eq_zero_iff (a b : List Bool) (h : a.length = b.length) :
    hamming a b = 0 ↔ a = b := by
  induction a generalizing b with
  | nil =>
    cases b with
    | nil => simp [hamming]
    | cons y ys => simp at h
  | cons x xs ih =>
    cases b with
    | nil => simp at h
    | cons y ys =>
      simp only [List.length_cons] at h
      simp only [hamming, List.cons.injEq]
      rw [← ih ys (by omega)]
      constructor
      · intro h0
        by_cases hxy : x = y
        · simp [hxy] at h0
          exact ⟨hxy, h0⟩
        · simp [hxy] at h0
      · rintro ⟨h1, h2⟩
        simp [h1, h2]

theorem hamming_replicate_false (n : Nat) :
    hamming (List.replicate n false) (List.replicate n false) = 0 :=
  hamming_self _

/-! ### Lemmas about the ordered-dict model -/

theorem dictGet?_dictInsert {β : Type} (k x : String) (v : β) (l : List (String × β)) :
    dictGet? x (dictInsert k v l) = if k = x then some v else dictGet? x l := by
  induction l with
  | nil => simp [dictGet?, dictInsert]
  | cons p rest ih =>
    obtain ⟨k', v'⟩ := p
    by_cases hk : k' = k
    · subst hk
      by_cases hx : k' = x <;> simp [dictGet?, dictInsert, hx]
    · by_cases hx : k' = x
      · subst hx
        have hkx : ¬ k = k' := fun hh => hk hh.symm
        simp [dictGet?, dictInsert, hk, hkx]
      · simp [dictGet?, dictInsert, hk, hx, ih]

theorem mem_dictInsert {β : Type} {p : String × β} {k : String} {v : β}
    {l : List (String × β)} : p ∈ dictInsert k v l → p = (k, v) ∨ p ∈ l := by
  induction l with
  | nil => intro h; simpa [dictInsert] using h
  | cons q rest ih =>
    obtain ⟨k', v'⟩ := q
    intro h
    by_cases hk : k' = k
    · subst hk
      simp only [dictInsert, if_pos rfl] at h
      rcases List.mem_cons.mp h with h1 | h1
      · exact Or.inl h1
      · exact Or.inr (List.mem_cons_of_mem _ h1)
    · simp only [dictInsert, if_neg hk, List.mem_cons] at h
      rcases h with h | h
      · exact Or.inr (List.mem_cons.mpr (Or.inl h))
      · rcases ih h with h' | h'
        · exact Or.inl h'
        · exact Or.inr (List.mem_cons_of_mem _ h')

theorem dictGet?_eq_some_mem {β : Type} {x : String} {l : List (String × β)} {v : β} :
    dictGet? x l = some v → (x, v) ∈ l := by
  induction l with
  | nil => intro h; simp [dictGet?] at h
  | cons q rest ih =>
    obtain ⟨k', v'⟩ := q
    intro h
    simp only [dictGet?] at h
    split at h
    · next heq =>
      subst heq
      cases h
      exact List.mem_cons_self _ _
    · exact List.mem_cons_of_mem _ (ih h)

theorem dictGet?_isSome_iff {β : Type} (x : String) (l : List (String × β)) :
    (dictGet? x l).isSome = true ↔ x ∈ l.map Prod.fst := by
  induction l with
  | nil => simp [dictGet?]
  | cons q rest ih =>
    obtain ⟨k', v'⟩ := q
    by_cases hk : k' = x
    · subst hk
      simp [dictGet?]
    · have hx : ¬ x = k' := fun hh => hk hh.symm
      simp [dictGet?, hk, hx, ih]

theorem mem_keys_dictInsert {β : Type} (y k : String) (v : β) (l : List (String × β)) :
    y ∈ (dictInsert k v l).map Prod.fst ↔ y = k ∨ y ∈ l.map Prod.fst := by
  induction l with
  | nil => simp [dictInsert]
  | cons q rest ih =>
    obtain ⟨k', v'⟩ := q
    by_cases hk : k' = k
    · subst hk
      simp [dictInsert]
    · simp only [dictInsert, if_neg hk, List.map_cons, List.mem_cons, ih]
      tauto

theorem nodup_keys_dictInsert {β : Type} (k : String) (v : β) (l : List (String × β))
    (h : (l.map Prod.fst).Nodup) : ((dictInsert k v l).map Prod.fst).Nodup := by
  induction l with
  | nil => simp [dictInsert]
  | cons q rest ih =>
    obtain ⟨k', v'⟩ := q
    simp only [List.map_cons, List.nodup_cons] at h
    by_cases hk : k' = k
    · subst hk
      simpa [dictInsert] using h
    · simp only [dictInsert, if_neg hk, List.map_cons, List.nodup_cons]
      refine ⟨fun hmem => ?_, ih h.2⟩
      rcases (mem_keys_dictInsert k' k v rest).mp hmem with h' | h'
      · exact hk h'
      · exact h.1 h'

theorem dictGet?_dictInsert_of_get_ne {β : Type} {x k : String} {v ℓ : β}
    {l : List (String × β)} (hx : dictGet? x l = some ℓ) (hk : dictGet? k l = none) :
    dictGet? x (dictInsert k v l) = some ℓ := by
  rw [dictGet?_dictInsert]
  split
  · next hkx => rw [hkx, hx] at hk; cases hk
  · exact hx

theorem dictGet?_dictInsert_self {β : Type} (k : String) (v : β) (l : List (String × β)) :
    dictGet? k (dictInsert k v l) = some v := by
  rw [dictGet?_dictInsert, if_pos rfl]

/-! ### Generic fold preservation -/

theorem foldl_pres {σ α : Type} {P : σ → Prop} {f : σ → α → σ}
    (hf : ∀ s a, P s → P (f s a)) :
    ∀ (l : List α) (s : σ), P s → P (l.foldl f s) := by
  intro l
  induction l with
  | nil => intro s h; exact h
  | cons a t ih => intro s h; exact ih (f s a) (hf s a h)

theorem foldl_pres_mem {σ α : Type} {P : σ → Prop} {f : σ → α → σ} :
    ∀ (l : List α), (∀ s a, a ∈ l → P s → P (f s a)) →
      ∀ s, P s → P (l.foldl f s) := by
  intro l
  induction l with
  | nil => intro _ s h; exact h
  | cons a t ih =>
    intro hf s h
    exact ih (fun s' a' ha' => hf s' a' (List.mem_cons_of_mem _ ha')) (f s a)
      (hf s a (List.mem_cons_self _ _) h)

theorem foldl_flatten_eq {σ α : Type} (f : σ → α → σ) (L : List (List α)) (s : σ) :
    (L.flatten).foldl f s = L.foldl (fun t l => l.foldl f t) s := by
  induction L generalizing s with
  | nil => rfl
  | cons l L2 ih => simp [List.foldl_append, ih]

/-! ### Structural lemmas about the label resolver -/

theorem calculateSimilarity_fst (st : LSH) (a b : String) :
    (calculateSimilarity st a b).1 = a := by
  unfold calculateSimilarity calculateSimilarityLog
  split <;> rfl

theorem calculateSimilarity_snd_fst (st : LSH) (a b : String) :
    (calculateSimilarity st a b).2.1 = b := by
  unfold calculateSimilarity calculateSimilarityLog
  split <;> rfl

theorem calculateSimilarity_congr {st st' : LSH} (h1 : st'.signatures = st.signatures)
    (h2 : st'.hash_size = st.hash_size) (a b : String) :
    calculateSimilarity st' a b = calculateSimilarity st a b := by
  unfold calculateSimilarity calculateSimilarityLog
  rw [h1, h2]

theorem processPair_config (thr : ℚ) (c : Bool) (st : LSH) (pr : String × String) :
    (processPair thr c st pr).hash_size = st.hash_size ∧
    (processPair thr c st pr).bands = st.bands ∧
    (processPair thr c st pr).rows = st.rows ∧
    (processPair thr c st pr).hash_buckets_list = st.hash_buckets_list ∧
    (processPair thr c st pr).signatures = st.signatures := by
  unfold processPair
  dsimp only
  repeat' split
  all_goals exact ⟨rfl, rfl, rfl, rfl, rfl⟩

theorem remStep_config (s : LSH) (kv : String × List Nat) :
    (remStep s kv).hash_size = s.hash_size ∧
    (remStep s kv).bands = s.bands ∧
    (remStep s kv).rows = s.rows ∧
    (remStep s kv).hash_buckets_list = s.hash_buckets_list ∧
    (remStep s kv).signatures = s.signatures := by
  unfold remStep
  split
  all_goals exact ⟨rfl, rfl, rfl, rfl, rfl⟩

theorem processBucket_eq_foldl (thr : ℚ) (c : Bool) (s : LSH) (m : List String) :
    processBucket thr c s m = (bucketPairs m).foldl (processPair thr c) s := by
  unfold processBucket bucketPairs
  split
  · rfl
  · next hlen =>
    match m with
    | [] => rfl
    | [a] => rfl
    | a :: b :: t => exact absurd (by simp only [List.length_cons]; omega) hlen

theorem processSimilarities_eq_foldl (st : LSH) (thr : ℚ) (c : Bool) :
    processSimilarities st thr c =
      (allPairs st.hash_buckets_list).foldl (processPair thr c) st := by
  unfold processSimilarities allPairs
  rw [foldl_flatten_eq, List.foldl_map]
  have hband : ∀ (band : List (List Bool × List String)) (t : LSH),
      band.foldl (fun s' kv => processBucket thr c s' kv.2) t =
        ((band.map (fun kv => bucketPairs kv.2)).flatten).foldl (processPair thr c) t := by
    intro band t
    rw [foldl_flatten_eq, List.foldl_map]
    induction band generalizing t with
    | nil => rfl
    | cons kv rest ih =>
      simp only [List.foldl_cons]
      rw [processBucket_eq_foldl, ih]
  simp only [hband]

/-- Case analysis for `linkLabels`: `img_a` already labeled, `img_b` already labeled. -/
theorem linkLabels_char_aa {l : List (String × Nat)} {c : Nat} {a b : String} {ℓa ℓb : Nat}
    (hA : dictGet? a l = some ℓa) (hB : dictGet? b l = some ℓb) :
    linkLabels l c a b = (l, c) := by
  unfold linkLabels
  simp [hA, hB]

/-- `img_a` already labeled, `img_b` not: `img_b` inherits `img_a`'s label. -/
theorem linkLabels_char_ab {l : List (String × Nat)} {c : Nat} {a b : String} {ℓa : Nat}
    (hA : dictGet? a l = some ℓa) (hB : dictGet? b l = none) :
    linkLabels l c a b = (dictInsert b ℓa l, c) := by
  unfold linkLabels
  simp [hA, hB]

/-- `img_a` unlabeled and the pair is the same image twice. -/
theorem linkLabels_char_na_self {l : List (String × Nat)} {c : Nat} {a : String}
    (hA : dictGet? a l = none) :
    linkLabels l c a a = (dictInsert a c l, c + 1) := by
  unfold linkLabels
  simp [hA, dictGet?_dictInsert_self]

/-- `img_a` unlabeled, `img_b ≠ img_a` unlabeled: both get the fresh label. -/
theorem linkLabels_char_nn {l : List (String × Nat)} {c : Nat} {a b : String}
    (hA : dictGet? a l = none) (hB : dictGet? b l = none) (hab : a ≠ b) :
    linkLabels l c a b = (dictInsert b c (dictInsert a c l), c + 1) := by
  unfold linkLabels
  simp [hA, hB, hab, dictGet?_dictInsert]

/-- `img_a` unlabeled, `img_b ≠ img_a` already labeled: only `img_a` changes. -/
theorem linkLabels_char_nb {l : List (String × Nat)} {c : Nat} {a b : String} {ℓb : Nat}
    (hA : dictGet? a l = none) (hB : dictGet? b l = some ℓb) (hab : a ≠ b) :
    linkLabels l c a b = (dictInsert a c l, c + 1) := by
  unfold linkLabels
  simp [hA, hB, hab, dictGet?_dictInsert]

theorem linkLabels_labels_mono {l : List (String × Nat)} {c : Nat} {a b x : String}
    {ℓ : Nat} (h : dictGet? x l = some ℓ) :
    dictGet? x (linkLabels l c a b).1 = some ℓ := by
  rcases hA : dictGet? a l with _ | ℓa
  · by_cases hab : a = b
    · subst hab
      rw [linkLabels_char_na_self hA]
      exact dictGet?_dictInsert_of_get_ne h hA
    · rcases hB : dictGet? b l with _ | ℓb
      · rw [linkLabels_char_nn hA hB hab]
        have h1 : dictGet? x (dictInsert a c l) = some ℓ :=
          dictGet?_dictInsert_of_get_ne h hA
        refine dictGet?_dictInsert_of_get_ne h1 ?_
        rw [dictGet?_dictInsert, if_neg hab, hB]
      · rw [linkLabels_char_nb hA hB hab]
        exact dictGet?_dictInsert_of_get_ne h hA
  · rcases hB : dictGet? b l with _ | ℓb
    · rw [linkLabels_char_ab hA hB]
      exact dictGet?_dictInsert_of_get_ne h hB
    · rw [linkLabels_char_aa hA hB]
      exact h

theorem linkLabels_counter_mono (l : List (String × Nat)) (c : Nat) (a b : String) :
    c ≤ (linkLabels l c a b).2 := by
  rcases hA : dictGet? a l with _ | ℓa
  · by_cases hab : a = b
    · subst hab; rw [linkLabels_char_na_self hA]; exact Nat.le_succ _
    · rcases hB : dictGet? b l with _ | ℓb
      · rw [linkLabels_char_nn hA hB hab]; exact Nat.le_succ _
      · rw [linkLabels_char_nb hA hB hab]; exact Nat.le_succ _
  · rcases hB : dictGet? b l with _ | ℓb
    · rw [linkLabels_char_ab hA hB]
    · rw [linkLabels_char_aa hA hB]

theorem processPair_labels_char (thr : ℚ) (c : Bool) (st : LSH) (pr : String × String) :
    (processPair thr c st pr).labels =
      if thr ≤ (calculateSimilarity st pr.1 pr.2).2.2 then
        (linkLabels st.labels st.label_counter pr.1 pr.2).1
      else st.labels := by
  unfold processPair
  dsimp only
  rw [calculateSimilarity_fst, calculateSimilarity_snd_fst]
  split <;> rfl

theorem processPair_counter_char (thr : ℚ) (c : Bool) (st : LSH) (pr : String × String) :
    (processPair thr c st pr).label_counter =
      if thr ≤ (calculateSimilarity st pr.1 pr.2).2.2 then
        (linkLabels st.labels st.label_counter pr.1 pr.2).2
      else st.label_counter := by
  unfold processPair
  dsimp only
  rw [calculateSimilarity_fst, calculateSimilarity_snd_fst]
  split <;> rfl

theorem processPair_labels_mono (thr : ℚ) (c : Bool) (st : LSH) (pr : String × String)
    {x : String} {ℓ : Nat} (h : dictGet? x st.labels = some ℓ) :
    dictGet? x (processPair thr c st pr).labels = some ℓ := by
  rw [processPair_labels_char]
  split
  · exact linkLabels_labels_mono h
  · exact h

theorem processPair_isSome_mono (thr : ℚ) (c : Bool) (st : LSH) (pr : String × String)
    {x : String} (h : (dictGet? x st.labels).isSome = true) :
    (dictGet? x (processPair thr c st pr).labels).isSome = true := by
  rcases Option.isSome_iff_exists.mp h with ⟨ℓ, hℓ⟩
  rw [processPair_labels_mono thr c st pr hℓ]
  rfl

theorem processPair_counter_mono (thr : ℚ) (c : Bool) (st : LSH) (pr : String × String) :
    st.label_counter ≤ (processPair thr c st pr).label_counter := by
  rw [processPair_counter_char]
  split
  · exact linkLabels_counter_mono _ _ _ _
  · exact Nat.le_refl _

theorem remStep_labels_mono (s : LSH) (kv : String × List Nat)
    {x : String} {ℓ : Nat} (h : dictGet? x s.labels = some ℓ) :
    dictGet? x (remStep s kv).labels = some ℓ := by
  unfold remStep
  split
  · next hn =>
    rw [Option.isNone_iff_eq_none] at hn
    exact dictGet?_dictInsert_of_get_ne h hn
  · exact h

theorem remStep_isSome_mono (s : LSH) (kv : String × List Nat)
    {x : String} (h : (dictGet? x s.labels).isSome = true) :
    (dictGet? x (remStep s kv).labels).isSome = true := by
  rcases Option.isSome_iff_exists.mp h with ⟨ℓ, hℓ⟩
  rw [remStep_labels_mono s kv hℓ]
  rfl

theorem remStep_covers_self (s : LSH) (kv : String × List Nat) :
    (dictGet? kv.1 (remStep s kv).labels).isSome = true := by
  unfold remStep
  split
  · simp [dictGet?_dictInsert_self]
  · next hn =>
    rcases hO : dictGet? kv.1 s.labels with _ | v
    · exact absurd (by rw [Option.isNone_iff_eq_none, hO]) hn
    · rfl

theorem remStep_counter_mono (s : LSH) (kv : String × List Nat) :
    s.label_counter ≤ (remStep s kv).label_counter := by
  unfold remStep
  split
  · exact Nat.le_succ _
  · exact Nat.le_refl _

theorem linkLabels_keys {l : List (String × Nat)} {c : Nat} {a b x : String}
    (h : x ∈ (linkLabels l c a b).1.map Prod.fst) :
    x = a ∨ x = b ∨ x ∈ l.map Prod.fst := by
  rcases hA : dictGet? a l with _ | ℓa
  · by_cases hab : a = b
    · subst hab
      rw [linkLabels_char_na_self hA] at h
      rcases (mem_keys_dictInsert _ _ _ _).mp h with h1 | h1
      · exact Or.inl h1
      · exact Or.inr (Or.inr h1)
    · rcases hB : dictGet? b l with _ | ℓb
      · rw [linkLabels_char_nn hA hB hab] at h
        rcases (mem_keys_dictInsert _ _ _ _).mp h with h1 | h1
        · exact Or.inr (Or.inl h1)
        · rcases (mem_keys_dictInsert _ _ _ _).mp h1 with h2 | h2
          · exact Or.inl h2
          · exact Or.inr (Or.inr h2)
      · rw [linkLabels_char_nb hA hB hab] at h
        rcases (mem_keys_dictInsert _ _ _ _).mp h with h1 | h1
        · exact Or.inl h1
        · exact Or.inr (Or.inr h1)
  · rcases hB : dictGet? b l with _ | ℓb
    · rw [linkLabels_char_ab hA hB] at h
      rcases (mem_keys_dictInsert _ _ _ _).mp h with h1 | h1
      · exact Or.inr (Or.inl h1)
      · exact Or.inr (Or.inr h1)
    · rw [linkLabels_char_aa hA hB] at h
      exact Or.inr (Or.inr h)

theorem linkLabels_nodup_keys {l : List (String × Nat)} {c : Nat} {a b : String}
    (h : (l.map Prod.fst).Nodup) : ((linkLabels l c a b).1.map Prod.fst).Nodup := by
  rcases hA : dictGet? a l with _ | ℓa
  · by_cases hab : a = b
    · subst hab
      rw [linkLabels_char_na_self hA]
      exact nodup_keys_dictInsert _ _ _ h
    · rcases hB : dictGet? b l with _ | ℓb
      · rw [linkLabels_char_nn hA hB hab]
        exact nodup_keys_dictInsert _ _ _ (nodup_keys_dictInsert _ _ _ h)
      · rw [linkLabels_char_nb hA hB hab]
        exact nodup_keys_dictInsert _ _ _ h
  · rcases hB : dictGet? b l with _ | ℓb
    · rw [linkLabels_char_ab hA hB]
      exact nodup_keys_dictInsert _ _ _ h
    · rw [linkLabels_char_aa hA hB]
      exact h

theorem processPair_keys (thr : ℚ) (c : Bool) (st : LSH) (pr : String × String)
    {x : String} (h : x ∈ (processPair thr c st pr).labels.map Prod.fst) :
    x = pr.1 ∨ x = pr.2 ∨ x ∈ st.labels.map Prod.fst := by
  rw [processPair_labels_char] at h
  split at h
  · exact linkLabels_keys h
  · exact Or.inr (Or.inr h)

theorem remStep_keys (s : LSH) (kv : String × List Nat)
    {x : String} (h : x ∈ (remStep s kv).labels.map Prod.fst) :
    x = kv.1 ∨ x ∈ s.labels.map Prod.fst := by
  unfold remStep at h
  split at h
  · exact (mem_keys_dictInsert _ _ _ _).mp h
  · exact Or.inr h

theorem processPair_nodup_keys (thr : ℚ) (c : Bool) (st : LSH) (pr : String × String)
    (h : (st.labels.map Prod.fst).Nodup) :
    ((processPair thr c st pr).labels.map Prod.fst).Nodup := by
  rw [processPair_labels_char]
  split
  · exact linkLabels_nodup_keys h
  · exact h

theorem remStep_nodup_keys (s : LSH) (kv : String × List Nat)
    (h : (s.labels.map Prod.fst).Nodup) :
    ((remStep s kv).labels.map Prod.fst).Nodup := by
  unfold remStep
  split
  · exact nodup_keys_dictInsert _ _ _ h
  · exact h

/-- If `img_b` is unlabeled when the pair is linked, both ends share a label
afterwards (`img_a` keeps or gets one, `img_b` inherits it). -/
theorem linkLabels_links {l : List (String × Nat)} {c : Nat} {a b : String}
    (hB : dictGet? b l = none) :
    ∃ ℓ, dictGet? a (linkLabels l c a b).1 = some ℓ ∧
         dictGet? b (linkLabels l c a b).1 = some ℓ := by
  rcases hA : dictGet? a l with _ | ℓa
  · by_cases hab : a = b
    · subst hab
      rw [linkLabels_char_na_self hA]
      exact ⟨c, dictGet?_dictInsert_self _ _ _, dictGet?_dictInsert_self _ _ _⟩
    · rw [linkLabels_char_nn hA hB hab]
      refine ⟨c, ?_, dictGet?_dictInsert_self _ _ _⟩
      refine dictGet?_dictInsert_of_get_ne (dictGet?_dictInsert_self _ _ _) ?_
      rw [dictGet?_dictInsert, if_neg hab, hB]
  · rw [linkLabels_char_ab hA hB]
    exact ⟨ℓa, dictGet?_dictInsert_of_get_ne hA hB, dictGet?_dictInsert_self _ _ _⟩

/-- Every recorded label value is below the current counter. -/
def labelsBounded (l : List (String × Nat)) (c : Nat) : Prop :=
  ∀ p ∈ l, p.2 < c

theorem labelsBounded_dictInsert {l : List (String × Nat)} {c v : Nat} {k : String}
    (h : labelsBounded l c) (hv : v < c) : labelsBounded (dictInsert k v l) c := by
  intro p hp
  rcases mem_dictInsert hp with he | hm
  · rw [he]; exact hv
  · exact h p hm

theorem labelsBounded_le {l : List (String × Nat)} {c c' : Nat}
    (h : labelsBounded l c) (hcc : c ≤ c') : labelsBounded l c' :=
  fun p hp => Nat.lt_of_lt_of_le (h p hp) hcc

theorem linkLabels_bounded {l : List (String × Nat)} {c : Nat} {a b : String}
    (h : labelsBounded l c) :
    labelsBounded (linkLabels l c a b).1 (linkLabels l c a b).2 := by
  rcases hA : dictGet? a l with _ | ℓa
  · by_cases hab : a = b
    · subst hab
      rw [linkLabels_char_na_self hA]
      exact labelsBounded_dictInsert (labelsBounded_le h (Nat.le_succ _)) (Nat.lt_succ_self _)
    · rcases hB : dictGet? b l with _ | ℓb
      · rw [linkLabels_char_nn hA hB hab]
        exact labelsBounded_dictInsert
          (labelsBounded_dictInsert (labelsBounded_le h (Nat.le_succ _)) (Nat.lt_succ_self _))
          (Nat.lt_succ_self _)
      · rw [linkLabels_char_nb hA hB hab]
        exact labelsBounded_dictInsert (labelsBounded_le h (Nat.le_succ _)) (Nat.lt_succ_self _)
  · rcases hB : dictGet? b l with _ | ℓb
    · rw [linkLabels_char_ab hA hB]
      exact labelsBounded_dictInsert h (h _ (dictGet?_eq_some_mem hA))
    · rw [linkLabels_char_aa hA hB]
      exact h

theorem processPair_bounded (thr : ℚ) (c : Bool) (st : LSH) (pr : String × String)
    (h : labelsBounded st.labels st.label_counter) :
    labelsBounded (processPair thr c st pr).labels (processPair thr c st pr).label_counter := by
  rw [processPair_labels_char, processPair_counter_char]
  split
  · exact linkLabels_bounded h
  · exact h

theorem remStep_bounded (s : LSH) (kv : String × List Nat)
    (h : labelsBounded s.labels s.label_counter) :
    labelsBounded (remStep s kv).labels (remStep s kv).label_counter := by
  unfold remStep
  split
  · exact labelsBounded_dictInsert (labelsBounded_le h (Nat.le_succ _)) (Nat.lt_succ_self _)
  · exact h

theorem pair_mem_zip {α β : Type} : ∀ {l1 : List α} {l2 : List β} {a : α} {b : β},
    (a, b) ∈ l1.zip l2 → a ∈ l1 ∧ b ∈ l2 := by
  intro l1
  induction l1 with
  | nil => intro l2 a b h; simp [List.zip] at h
  | cons x t ih =>
    intro l2 a b h
    cases l2 with
    | nil => simp [List.zip] at h
    | cons y t2 =>
      simp only [List.zip_cons_cons, List.mem_cons, Prod.mk.injEq] at h
      rcases h with ⟨ha, hb⟩ | h1
      · subst ha; subst hb
        exact ⟨List.mem_cons_self _ _, List.mem_cons_self _ _⟩
      · obtain ⟨h2, h3⟩ := ih h1
        exact ⟨List.mem_cons_of_mem _ h2, List.mem_cons_of_mem _ h3⟩

theorem mem_bucketPairs {m : List String} {pr : String × String}
    (h : pr ∈ bucketPairs m) : pr.1 ∈ m ∧ pr.2 ∈ m := by
  obtain ⟨a, b⟩ := pr
  unfold bucketPairs at h
  obtain ⟨h1, h2⟩ := pair_mem_zip h
  exact ⟨h1, List.mem_of_mem_tail h2⟩

theorem mem_allPairs {bks : List (List (List Bool × List String))} {pr : String × String}
    (h : pr ∈ allPairs bks) :
    ∃ band ∈ bks, ∃ kv ∈ band, pr ∈ bucketPairs kv.2 := by
  unfold allPairs at h
  rw [List.mem_flatten] at h
  obtain ⟨l, hl, hpr⟩ := h
  rw [List.mem_map] at hl
  obtain ⟨band, hband, rfl⟩ := hl
  rw [List.mem_flatten] at hpr
  obtain ⟨l2, hl2, hpr2⟩ := hpr
  rw [List.mem_map] at hl2
  obtain ⟨kv, hkv, rfl⟩ := hl2
  exact ⟨band, hband, kv, hkv, hpr2⟩

/-! ### Lemmas about signature insertion and the run -/

theorem addSignature_labels (st : LSH) (p : String) (sig? : Option (List Bool)) :
    (addSignature st p sig?).labels = st.labels := by
  unfold addSignature; cases sig? <;> rfl

theorem addSignature_counter (st : LSH) (p : String) (sig? : Option (List Bool)) :
    (addSignature st p sig?).label_counter = st.label_counter := by
  unfold addSignature; cases sig? <;> rfl

theorem addSignature_config (st : LSH) (p : String) (sig? : Option (List Bool)) :
    (addSignature st p sig?).hash_size = st.hash_size ∧
    (addSignature st p sig?).bands = st.bands ∧
    (addSignature st p sig?).rows = st.rows := by
  unfold addSignature; cases sig? <;> exact ⟨rfl, rfl, rfl⟩

theorem runAdds_labels (hs bands : Nat) (adds : List (String × Option (List Bool))) :
    (runAdds hs bands adds).labels = [] := by
  unfold runAdds
  exact foldl_pres (P := fun s => s.labels = [])
    (fun s a hp => (addSignature_labels s a.1 a.2).trans hp) adds (LSH.init hs bands) rfl

theorem runAdds_counter (hs bands : Nat) (adds : List (String × Option (List Bool))) :
    (runAdds hs bands adds).label_counter = 0 := by
  unfold runAdds
  exact foldl_pres (P := fun s => s.label_counter = 0)
    (fun s a hp => (addSignature_counter s a.1 a.2).trans hp) adds (LSH.init hs bands) rfl

theorem runAdds_config (hs bands : Nat) (adds : List (String × Option (List Bool))) :
    (runAdds hs bands adds).hash_size = hs ∧
    (runAdds hs bands adds).bands = bands ∧
    (runAdds hs bands adds).rows = hs ^ 2 / bands := by
  unfold runAdds
  exact foldl_pres
    (P := fun s => s.hash_size = hs ∧ s.bands = bands ∧ s.rows = hs ^ 2 / bands)
    (fun s a hp => by
      obtain ⟨h1, h2, h3⟩ := addSignature_config s a.1 a.2
      exact ⟨h1.trans hp.1, h2.trans hp.2.1, h3.trans hp.2.2⟩)
    adds (LSH.init hs bands) ⟨rfl, rfl, rfl⟩

/-- Every bucket member has a stored signature. -/
def bucketsCovered (st : LSH) : Prop :=
  ∀ band ∈ st.hash_buckets_list, ∀ kv ∈ band, ∀ m ∈ kv.2,
    m ∈ st.signatures.map Prod.fst

theorem mem_insertAllBands {sig : List Bool} {rows : Nat} {p : String} :
    ∀ {i : Nat} {bks : List (List (List Bool × List String))}
      {band' : List (List Bool × List String)},
      band' ∈ insertAllBands sig rows p i bks →
      ∃ j bl, bl ∈ bks ∧ band' = bucketInsert (bandSlice sig rows j) p bl := by
  intro i bks
  induction bks generalizing i with
  | nil => intro band' h; simp [insertAllBands] at h
  | cons bl rest ih =>
    intro band' h
    rcases List.mem_cons.mp h with h1 | h1
    · exact ⟨i, bl, List.mem_cons_self _ _, h1⟩
    · obtain ⟨j, bl2, hbl2, heq⟩ := ih h1
      exact ⟨j, bl2, List.mem_cons_of_mem _ hbl2, heq⟩

theorem mem_bucketInsert_members {key : List Bool} {p m : String} :
    ∀ {bl : List (List Bool × List String)} {kv' : List Bool × List String},
      kv' ∈ bucketInsert key p bl → m ∈ kv'.2 →
      m = p ∨ ∃ kv ∈ bl, m ∈ kv.2 := by
  intro bl
  induction bl with
  | nil =>
    intro kv' hkv' hm
    simp only [bucketInsert, List.mem_singleton] at hkv'
    subst hkv'
    simp only [List.mem_singleton] at hm
    exact Or.inl hm
  | cons q rest ih =>
    obtain ⟨k1, l1⟩ := q
    intro kv' hkv' hm
    by_cases hk : k1 = key
    · subst hk
      simp only [bucketInsert, eq_self_iff_true, if_true, List.mem_cons] at hkv'
      rcases hkv' with h1 | h1
      · subst h1
        simp only [List.mem_append, List.mem_singleton] at hm
        rcases hm with hm | hm
        · exact Or.inr ⟨(k1, l1), List.mem_cons_self _ _, hm⟩
        · exact Or.inl hm
      · exact Or.inr ⟨kv', List.mem_cons_of_mem _ h1, hm⟩
    · simp only [bucketInsert, if_neg hk, List.mem_cons] at hkv'
      rcases hkv' with h1 | h1
      · subst h1
        exact Or.inr ⟨(k1, l1), List.mem_cons_self _ _, hm⟩
      · rcases ih h1 hm with h2 | h2
        · exact Or.inl h2
        · obtain ⟨kv, hkv, hmkv⟩ := h2
          exact Or.inr ⟨kv, List.mem_cons_of_mem _ hkv, hmkv⟩

theorem addSignature_bucketsCovered (st : LSH) (p : String) (sig? : Option (List Bool))
    (h : bucketsCovered st) : bucketsCovered (addSignature st p sig?) := by
  cases sig? with
  | none => exact h
  | some sig =>
    intro band' hband' kv' hkv' m hm
    obtain ⟨j, bl, hbl, heq⟩ := mem_insertAllBands hband'
    subst heq
    rcases mem_bucketInsert_members hkv' hm with h1 | h1
    · subst h1
      exact (mem_keys_dictInsert _ _ _ _).mpr (Or.inl rfl)
    · obtain ⟨kv, hkv, hmkv⟩ := h1
      exact (mem_keys_dictInsert _ _ _ _).mpr (Or.inr (h bl hbl kv hkv m hmkv))

theorem runAdds_bucketsCovered (hs bands : Nat)
    (adds : List (String × Option (List Bool))) :
    bucketsCovered (runAdds hs bands adds) := by
  unfold runAdds
  refine foldl_pres (P := bucketsCovered)
    (fun s a hp => addSignature_bucketsCovered s a.1 a.2 hp) adds _ ?_
  intro band hband kv hkv m hm
  have : band = [] := List.eq_of_mem_replicate hband
  subst this
  cases hkv

/-! ### Composite lemmas over the two labeling passes -/

theorem allPairs_covered {st : LSH} (hb : bucketsCovered st) {pr : String × String}
    (hpr : pr ∈ allPairs st.hash_buckets_list) :
    pr.1 ∈ st.signatures.map Prod.fst ∧ pr.2 ∈ st.signatures.map Prod.fst := by
  obtain ⟨band, hband, kv, hkv, hzip⟩ := mem_allPairs hpr
  obtain ⟨h1, h2⟩ := mem_bucketPairs hzip
  exact ⟨hb band hband kv hkv _ h1, hb band hband kv hkv _ h2⟩

theorem processSimilarities_config (st : LSH) (thr : ℚ) (c : Bool) :
    (processSimilarities st thr c).hash_size = st.hash_size ∧
    (processSimilarities st thr c).signatures = st.signatures ∧
    (processSimilarities st thr c).hash_buckets_list = st.hash_buckets_list := by
  rw [processSimilarities_eq_foldl]
  exact foldl_pres
    (P := fun s => s.hash_size = st.hash_size ∧ s.signatures = st.signatures ∧
      s.hash_buckets_list = st.hash_buckets_list)
    (fun s pr hp => by
      obtain ⟨h1, _, _, h4, h5⟩ := processPair_config thr c s pr
      exact ⟨h1.trans hp.1, h5.trans hp.2.1, h4.trans hp.2.2⟩)
    (allPairs st.hash_buckets_list) st ⟨rfl, rfl, rfl⟩

theorem processSimilarities_labels_mono (st : LSH) (thr : ℚ) (c : Bool) {x : String}
    {ℓ : Nat} (h : dictGet? x st.labels = some ℓ) :
    dictGet? x (processSimilarities st thr c).labels = some ℓ := by
  rw [processSimilarities_eq_foldl]
  exact foldl_pres (P := fun s => dictGet? x s.labels = some ℓ)
    (fun s pr hp => processPair_labels_mono thr c s pr hp)
    (allPairs st.hash_buckets_list) st h

theorem processSimilarities_counter_mono (st : LSH) (thr : ℚ) (c : Bool) :
    st.label_counter ≤ (processSimilarities st thr c).label_counter := by
  rw [processSimilarities_eq_foldl]
  exact foldl_pres (P := fun s => st.label_counter ≤ s.label_counter)
    (fun s pr hp => Nat.le_trans hp (processPair_counter_mono thr c s pr))
    (allPairs st.hash_buckets_list) st (Nat.le_refl _)

theorem processSimilarities_bounded (st : LSH) (thr : ℚ) (c : Bool)
    (h : labelsBounded st.labels st.label_counter) :
    labelsBounded (processSimilarities st thr c).labels
      (processSimilarities st thr c).label_counter := by
  rw [processSimilarities_eq_foldl]
  exact foldl_pres (P := fun s => labelsBounded s.labels s.label_counter)
    (fun s pr hp => processPair_bounded thr c s pr hp)
    (allPairs st.hash_buckets_list) st h

theorem processSimilarities_nodup_keys (st : LSH) (thr : ℚ) (c : Bool)
    (h : (st.labels.map Prod.fst).Nodup) :
    ((processSimilarities st thr c).labels.map Prod.fst).Nodup := by
  rw [processSimilarities_eq_foldl]
  exact foldl_pres (P := fun s => (s.labels.map Prod.fst).Nodup)
    (fun s pr hp => processPair_nodup_keys thr c s pr hp)
    (allPairs st.hash_buckets_list) st h

theorem processSimilarities_keys (st : LSH) (thr : ℚ) (c : Bool)
    (hb : bucketsCovered st) {x : String}
    (hx : x ∈ (processSimilarities st thr c).labels.map Prod.fst) :
    x ∈ st.signatures.map Prod.fst ∨ x ∈ st.labels.map Prod.fst := by
  rw [processSimilarities_eq_foldl] at hx
  refine foldl_pres_mem
    (P := fun s => ∀ y, y ∈ s.labels.map Prod.fst →
      y ∈ st.signatures.map Prod.fst ∨ y ∈ st.labels.map Prod.fst)
    (allPairs st.hash_buckets_list) ?_ st (fun y hy => Or.inr hy) x hx
  intro s pr hpr hp y hy
  rcases processPair_keys thr c s pr hy with h1 | h1 | h1
  · exact Or.inl (h1 ▸ (allPairs_covered hb hpr).1)
  · exact Or.inl (h1 ▸ (allPairs_covered hb hpr).2)
  · exact hp y h1

theorem remStep_keys_in (st s : LSH) (kv : String × List Nat)
    (hkv : kv ∈ st.signatures) {y : String}
    (hy : y ∈ (remStep s kv).labels.map Prod.fst) :
    y ∈ st.signatures.map Prod.fst ∨ y ∈ s.labels.map Prod.fst := by
  rcases remStep_keys s kv hy with h1 | h1
  · exact Or.inl (h1 ▸ List.mem_map.mpr ⟨kv, hkv, rfl⟩)
  · exact Or.inr h1

theorem assignRemaining_config (st : LSH) :
    (assignRemaining st).hash_size = st.hash_size ∧
    (assignRemaining st).signatures = st.signatures ∧
    (assignRemaining st).hash_buckets_list = st.hash_buckets_list := by
  unfold assignRemaining
  exact foldl_pres
    (P := fun s => s.hash_size = st.hash_size ∧ s.signatures = st.signatures ∧
      s.hash_buckets_list = st.hash_buckets_list)
    (fun s kv hp => by
      obtain ⟨h1, _, _, h4, h5⟩ := remStep_config s kv
      exact ⟨h1.trans hp.1, h5.trans hp.2.1, h4.trans hp.2.2⟩)
    st.signatures st ⟨rfl, rfl, rfl⟩

theorem assignRemaining_labels_mono (st : LSH) {x : String} {ℓ : Nat}
    (h : dictGet? x st.labels = some ℓ) :
    dictGet? x (assignRemaining st).labels = some ℓ := by
  unfold assignRemaining
  exact foldl_pres (P := fun s => dictGet? x s.labels = some ℓ)
    (fun s kv hp => remStep_labels_mono s kv hp) st.signatures st h

theorem assignRemaining_counter_mono (st : LSH) :
    st.label_counter ≤ (assignRemaining st).label_counter := by
  unfold assignRemaining
  exact foldl_pres (P := fun s => st.label_counter ≤ s.label_counter)
    (fun s kv hp => Nat.le_trans hp (remStep_counter_mono s kv)) st.signatures st
    (Nat.le_refl _)

theorem assignRemaining_bounded (st : LSH)
    (h : labelsBounded st.labels st.label_counter) :
    labelsBounded (assignRemaining st).labels (assignRemaining st).label_counter := by
  unfold assignRemaining
  exact foldl_pres (P := fun s => labelsBounded s.labels s.label_counter)
    (fun s kv hp => remStep_bounded s kv hp) st.signatures st h

theorem assignRemaining_nodup_keys (st : LSH) (h : (st.labels.map Prod.fst).Nodup) :
    ((assignRemaining st).labels.map Prod.fst).Nodup := by
  unfold assignRemaining
  exact foldl_pres (P := fun s => (s.labels.map Prod.fst).Nodup)
    (fun s kv hp => remStep_nodup_keys s kv hp) st.signatures st h

theorem assignRemaining_keys (st : LSH) {x : String}
    (hx : x ∈ (assignRemaining st).labels.map Prod.fst) :
    x ∈ st.signatures.map Prod.fst ∨ x ∈ st.labels.map Prod.fst := by
  unfold assignRemaining at hx
  refine foldl_pres_mem
    (P := fun s => ∀ y, y ∈ s.labels.map Prod.fst →
      y ∈ st.signatures.map Prod.fst ∨ y ∈ st.labels.map Prod.fst)
    st.signatures ?_ st (fun y hy => Or.inr hy) x hx
  intro s kv hkv hp y hy
  rcases remStep_keys_in st s kv hkv hy with h1 | h1
  · exact Or.inl h1
  · exact hp y h1

theorem foldl_remStep_covers :
    ∀ (l : List (String × List Nat)) (s : LSH) (kv : String × List Nat), kv ∈ l →
      (dictGet? kv.1 ((l.foldl remStep s).labels)).isSome = true := by
  intro l
  induction l with
  | nil => intro s kv h; cases h
  | cons a t ih =>
    intro s kv hkv
    rcases List.mem_cons.mp hkv with h | h
    · subst h
      exact foldl_pres (P := fun s' => (dictGet? kv.1 s'.labels).isSome = true)
        (fun s' a' hp => remStep_isSome_mono s' a' hp) t (remStep s kv)
        (remStep_covers_self s kv)
    · exact ih (remStep s a) kv h

theorem assignRemaining_covers (st : LSH) {x : String}
    (hx : x ∈ st.signatures.map Prod.fst) :
    (dictGet? x (assignRemaining st).labels).isSome = true := by
  rw [List.mem_map] at hx
  obtain ⟨kv, hkv, rfl⟩ := hx
  unfold assignRemaining
  exact foldl_remStep_covers st.signatures st kv hkv

/-! ### The similarity score in terms of the original bit vectors -/

theorem hamming_unpack_pack {sa sb : List Bool} (h : sa.length = sb.length) :
    hamming (unpack (pack sa)) (unpack (pack sb)) = hamming sa sb := by
  rw [unpack_pack, unpack_pack, h, hamming_append sa sb _ _ h, hamming_self,
    Nat.add_zero]

theorem calculateSimilarity_char (st : LSH) (a b : String) {sa sb : List Bool}
    (ha : dictGet? a st.signatures = some (pack sa))
    (hb : dictGet? b st.signatures = some (pack sb))
    (hlen : sa.length = sb.length) :
    calculateSimilarity st a b =
      (a, b, ((st.hash_size ^ 2 : ℚ) - (hamming sa sb : Nat)) / (st.hash_size ^ 2 : ℚ)) := by
  unfold calculateSimilarity calculateSimilarityLog
  rw [ha, hb]
  dsimp only
  rw [hamming_unpack_pack hlen]

/-- With every stored pair of signatures within hamming distance
`hash_size ^ 2` of each other, every score is nonnegative. -/
theorem calculateSimilarity_nonneg (st : LSH) (hn : 0 < st.hash_size)
    (hsigs : ∀ p ∈ st.signatures, ∀ q ∈ st.signatures,
      hamming (unpack p.2) (unpack q.2) ≤ st.hash_size ^ 2)
    (a b : String) : 0 ≤ (calculateSimilarity st a b).2.2 := by
  unfold calculateSimilarity calculateSimilarityLog
  rcases hA : dictGet? a st.signatures with _ | va
  · dsimp only
    rcases hB : dictGet? b st.signatures with _ | vb <;> exact le_refl 0
  · rcases hB : dictGet? b st.signatures with _ | vb
    · exact le_refl 0
    · dsimp only
      have hmem_a := dictGet?_eq_some_mem hA
      have hmem_b := dictGet?_eq_some_mem hB
      have hd := hsigs (a, va) hmem_a (b, vb) hmem_b
      have hpos : (0 : ℚ) < (st.hash_size ^ 2 : ℚ) := by
        have : 0 < st.hash_size ^ 2 := Nat.pos_pow_of_pos 2 hn
        exact_mod_cast this
      apply div_nonneg _ (le_of_lt hpos)
      rw [sub_nonneg]
      exact_mod_cast hd

theorem processPair_links (thr : ℚ) (c : Bool) (st : LSH) (A B : String)
    (hsim : thr ≤ (calculateSimilarity st A B).2.2)
    (hB : dictGet? B st.labels = none) :
    ∃ ℓ, dictGet? A (processPair thr c st (A, B)).labels = some ℓ ∧
         dictGet? B (processPair thr c st (A, B)).labels = some ℓ := by
  have hchar := processPair_labels_char thr c st (A, B)
  dsimp only at hchar
  rw [hchar, if_pos hsim]
  exact linkLabels_links hB

/-! ### Chaining within one bucket at threshold 0 -/

theorem processPair_chain_step (s : LSH) (a b : String) (ℓ : Nat) (c : Bool)
    (hsim : (0 : ℚ) ≤ (calculateSimilarity s a b).2.2)
    (ha : dictGet? a s.labels = some ℓ)
    (hb : dictGet? b s.labels = none ∨ dictGet? b s.labels = some ℓ) :
    dictGet? a (processPair 0 c s (a, b)).labels = some ℓ ∧
    dictGet? b (processPair 0 c s (a, b)).labels = some ℓ ∧
    ∀ x, dictGet? x s.labels = none →
      dictGet? x (processPair 0 c s (a, b)).labels = none ∨
      dictGet? x (processPair 0 c s (a, b)).labels = some ℓ := by
  have hchar := processPair_labels_char 0 c s (a, b)
  dsimp only at hchar
  rw [hchar, if_pos hsim]
  rcases hb with hb | hb
  · rw [linkLabels_char_ab ha hb]
    refine ⟨dictGet?_dictInsert_of_get_ne ha hb, dictGet?_dictInsert_self _ _ _, ?_⟩
    intro x hx
    rw [dictGet?_dictInsert]
    split
    · exact Or.inr rfl
    · exact Or.inl hx
  · rw [linkLabels_char_aa ha hb]
    exact ⟨ha, hb, fun x hx => Or.inl hx⟩

theorem processPair_chain_start (s : LSH) (a b : String) (c : Bool)
    (hsim : (0 : ℚ) ≤ (calculateSimilarity s a b).2.2)
    (ha : dictGet? a s.labels = none) (hb : dictGet? b s.labels = none) :
    ∃ ℓ, dictGet? a (processPair 0 c s (a, b)).labels = some ℓ ∧
      dictGet? b (processPair 0 c s (a, b)).labels = some ℓ ∧
      ∀ x, dictGet? x s.labels = none →
        dictGet? x (processPair 0 c s (a, b)).labels = none ∨
        dictGet? x (processPair 0 c s (a, b)).labels = some ℓ := by
  have hchar := processPair_labels_char 0 c s (a, b)
  dsimp only at hchar
  rw [hchar, if_pos hsim]
  by_cases hab : a = b
  · subst hab
    rw [linkLabels_char_na_self ha]
    refine ⟨s.label_counter, dictGet?_dictInsert_self _ _ _,
      dictGet?_dictInsert_self _ _ _, ?_⟩
    intro x hx
    rw [dictGet?_dictInsert]
    split
    · exact Or.inr rfl
    · exact Or.inl hx
  · rw [linkLabels_char_nn ha hb hab]
    have h1 : dictGet? a (dictInsert a s.label_counter s.labels) = some s.label_counter :=
      dictGet?_dictInsert_self _ _ _
    have h2 : dictGet? b (dictInsert a s.label_counter s.labels) = none := by
      rw [dictGet?_dictInsert, if_neg hab, hb]
    refine ⟨s.label_counter, dictGet?_dictInsert_of_get_ne h1 h2,
      dictGet?_dictInsert_self _ _ _, ?_⟩
    intro x hx
    rw [dictGet?_dictInsert]
    split
    · exact Or.inr rfl
    · rw [dictGet?_dictInsert]
      split
      · exact Or.inr rfl
      · exact Or.inl hx

/-- Nonnegativity of all scores is preserved by `processPair` (the signatures
and `hash_size` never change). -/
theorem processPair_sim_invariant (thr : ℚ) (c : Bool) (s : LSH) (pr : String × String)
    (h : ∀ a b, 0 ≤ (calculateSimilarity s a b).2.2) :
    ∀ a b, 0 ≤ (calculateSimilarity (processPair thr c s pr) a b).2.2 := by
  intro a b
  obtain ⟨h1, _, _, _, h5⟩ := processPair_config thr c s pr
  rw [calculateSimilarity_congr h5 h1]
  exact h a b

theorem chain_fold (c : Bool) : ∀ (l : List String) (prev : String) (s : LSH) (ℓ : Nat),
    (∀ a b, 0 ≤ (calculateSimilarity s a b).2.2) →
    dictGet? prev s.labels = some ℓ →
    (∀ m ∈ l, dictGet? m s.labels = none ∨ dictGet? m s.labels = some ℓ) →
    ∀ m ∈ prev :: l,
      dictGet? m (((prev :: l).zip l).foldl (processPair 0 c) s).labels = some ℓ := by
  intro l
  induction l with
  | nil =>
    intro prev s ℓ _ hprev _ m hm
    rcases List.mem_cons.mp hm with he | he
    · subst he; exact hprev
    · cases he
  | cons m0 rest ih =>
    intro prev s ℓ hnn hprev hl m hm
    rw [List.zip_cons_cons, List.foldl_cons]
    obtain ⟨hprev', hm0', hpres⟩ :=
      processPair_chain_step s prev m0 ℓ c (hnn prev m0) hprev
        (hl m0 (List.mem_cons_self _ _))
    have hnn' := processPair_sim_invariant 0 c s (prev, m0) hnn
    have hl' : ∀ m2 ∈ rest,
        dictGet? m2 (processPair 0 c s (prev, m0)).labels = none ∨
        dictGet? m2 (processPair 0 c s (prev, m0)).labels = some ℓ := by
      intro m2 hm2
      rcases hl m2 (List.mem_cons_of_mem _ hm2) with h | h
      · exact hpres m2 h
      · exact Or.inr (processPair_labels_mono 0 c s (prev, m0) h)
    rcases List.mem_cons.mp hm with he | hm2
    · rw [he]
      exact foldl_pres (P := fun t => dictGet? prev t.labels = some ℓ)
        (fun t pr hp => processPair_labels_mono 0 c t pr hp)
        ((m0 :: rest).zip rest) (processPair 0 c s (prev, m0)) hprev'
    · exact ih m0 (processPair 0 c s (prev, m0)) ℓ hnn' hm0' hl' m hm2

theorem processBucket_chains (s1 : LSH) (members : List String) (c : Bool)
    (hlen : 1 < members.length)
    (hnn : ∀ a b, 0 ≤ (calculateSimilarity s1 a b).2.2)
    (hunl : ∀ m ∈ members, dictGet? m s1.labels = none) :
    ∃ ℓ, ∀ m ∈ members, dictGet? m (processBucket 0 c s1 members).labels = some ℓ := by
  rw [processBucket_eq_foldl]
  match members, hlen, hunl with
  | m0 :: m1 :: rest, _, hunl =>
    unfold bucketPairs
    simp only [List.tail_cons]
    rw [List.zip_cons_cons, List.foldl_cons]
    obtain ⟨ℓ, hm0', hm1', hpres⟩ :=
      processPair_chain_start s1 m0 m1 c (hnn m0 m1)
        (hunl m0 (List.mem_cons_self _ _))
        (hunl m1 (List.mem_cons_of_mem _ (List.mem_cons_self _ _)))
    refine ⟨ℓ, ?_⟩
    have hnn' := processPair_sim_invariant 0 c s1 (m0, m1) hnn
    have hl' : ∀ m2 ∈ rest,
        dictGet? m2 (processPair 0 c s1 (m0, m1)).labels = none ∨
        dictGet? m2 (processPair 0 c s1 (m0, m1)).labels = some ℓ :=
      fun m2 hm2 =>
        hpres m2 (hunl m2 (List.mem_cons_of_mem _ (List.mem_cons_of_mem _ hm2)))
    have hchain := chain_fold c rest m1 (processPair 0 c s1 (m0, m1)) ℓ hnn' hm1' hl'
    intro m hm
    rcases List.mem_cons.mp hm with he | hm2
    · rw [he]
      exact foldl_pres (P := fun t => dictGet? m0 t.labels = some ℓ)
        (fun t pr hp => processPair_labels_mono 0 c t pr hp)
        ((m1 :: rest).zip rest) (processPair 0 c s1 (m0, m1)) hm0'
    · exact hchain m hm2

/-! ### Bucket-level view of the walk -/

theorem processSimilarities_eq_foldl_buckets (st : LSH) (thr : ℚ) (c : Bool) :
    processSimilarities st thr c =
      (allBuckets st.hash_buckets_list).foldl (processBucket thr c) st := by
  unfold processSimilarities allBuckets
  rw [foldl_flatten_eq, List.foldl_map]
  have hband : ∀ (band : List (List Bool × List String)) (t : LSH),
      band.foldl (fun s' kv => processBucket thr c s' kv.2) t =
        (band.map (fun kv => kv.2)).foldl (processBucket thr c) t := by
    intro band t
    rw [List.foldl_map]
  simp only [hband]

theorem processBucket_config (thr : ℚ) (c : Bool) (s : LSH) (m : List String) :
    (processBucket thr c s m).hash_size = s.hash_size ∧
    (processBucket thr c s m).signatures = s.signatures := by
  rw [processBucket_eq_foldl]
  exact foldl_pres
    (P := fun t => t.hash_size = s.hash_size ∧ t.signatures = s.signatures)
    (fun t pr hp => by
      obtain ⟨h1, _, _, _, h5⟩ := processPair_config thr c t pr
      exact ⟨h1.trans hp.1, h5.trans hp.2⟩)
    (bucketPairs m) s ⟨rfl, rfl⟩

theorem processBucket_labels_mono (thr : ℚ) (c : Bool) (s : LSH) (m : List String)
    {x : String} {ℓ : Nat} (h : dictGet? x s.labels = some ℓ) :
    dictGet? x (processBucket thr c s m).labels = some ℓ := by
  rw [processBucket_eq_foldl]
  exact foldl_pres (P := fun t => dictGet? x t.labels = some ℓ)
    (fun t pr hp => processPair_labels_mono thr c t pr hp) (bucketPairs m) s h

theorem processBucket_sim_invariant (thr : ℚ) (c : Bool) (s : LSH) (m : List String)
    (h : ∀ a b, 0 ≤ (calculateSimilarity s a b).2.2) :
    ∀ a b, 0 ≤ (calculateSimilarity (processBucket thr c s m) a b).2.2 := by
  intro a b
  obtain ⟨h1, h5⟩ := processBucket_config thr c s m
  rw [calculateSimilarity_congr h5 h1]
  exact h a b

/-! ### Bucketing geometry: rows, band slices, degenerate bands -/

theorem take_drop_take {α : Type} :
    ∀ (l : List α) (k m n : Nat), k + m ≤ n →
      ((l.take n).drop k).take m = (l.drop k).take m := by
  intro l
  induction l with
  | nil => intro k m n h; simp
  | cons x t ih =>
    intro k m n h
    cases k with
    | zero =>
      cases n with
      | zero =>
        have hm : m = 0 := by omega
        subst hm; simp
      | succ n2 =>
        cases m with
        | zero => simp
        | succ m2 =>
          have h2 := ih 0 m2 n2 (by omega)
          simp only [List.drop_zero] at h2 ⊢
          simp only [List.take_succ_cons, h2]
    | succ k2 =>
      cases n with
      | zero => omega
      | succ n2 =>
        simp only [List.take_succ_cons, List.drop_succ_cons]
        exact ih k2 m n2 (by omega)

/-- Band `i`'s slice only looks at the first `bands * rows` bit positions. -/
theorem bandSlice_congr {sig sig' : List Bool} {rows : Nat} (bands : Nat) {i : Nat}
    (hi : i < bands)
    (h : sig.take (bands * rows) = sig'.take (bands * rows)) :
    bandSlice sig rows i = bandSlice sig' rows i := by
  unfold bandSlice
  have hle : i * rows + rows ≤ bands * rows := by
    have h1 : (i + 1) * rows ≤ bands * rows :=
      Nat.mul_le_mul_right rows (Nat.succ_le_of_lt hi)
    rw [Nat.succ_mul] at h1
    exact h1
  rw [← take_drop_take sig (i * rows) rows (bands * rows) hle,
    ← take_drop_take sig' (i * rows) rows (bands * rows) hle, h]

theorem insertAllBands_congr {sig sig' : List Bool} {rows : Nat} {p : String}
    {bands : Nat} (h : sig.take (bands * rows) = sig'.take (bands * rows)) :
    ∀ (bks : List (List (List Bool × List String))) (i : Nat),
      i + bks.length ≤ bands →
      insertAllBands sig rows p i bks = insertAllBands sig' rows p i bks := by
  intro bks
  induction bks with
  | nil => intro i _; rfl
  | cons bl rest ih =>
    intro i hlen
    simp only [List.length_cons] at hlen
    simp only [insertAllBands]
    rw [bandSlice_congr bands (by omega) h, ih (i + 1) (by omega)]

theorem bandSlice_zero_rows (sig : List Bool) (i : Nat) : bandSlice sig 0 i = [] := by
  unfold bandSlice
  exact List.take_zero _

theorem insertAllBands_zero_rows (sig : List Bool) (p : String)
    (bl : List (List Bool × List String)) :
    ∀ (n i : Nat),
      insertAllBands sig 0 p i (List.replicate n bl) =
        List.replicate n (bucketInsert [] p bl) := by
  intro n
  induction n with
  | zero => intro i; rfl
  | succ n2 ih =>
    intro i
    simp only [List.replicate_succ, insertAllBands, bandSlice_zero_rows, ih (i + 1)]

theorem bucketInsert_bucketListOf (p : String) (ps : List String) :
    bucketInsert [] p (bucketListOf ps) = bucketListOf (ps ++ [p]) := by
  unfold bucketListOf
  by_cases hps : ps = []
  · subst hps
    simp [bucketInsert]
  · rw [if_neg hps, if_neg (by simp)]
    simp [bucketInsert]

theorem runAdds_zero_rows_aux (bands : Nat) :
    ∀ (adds : List (String × Option (List Bool))) (s : LSH) (ps : List String),
      s.rows = 0 →
      s.hash_buckets_list = List.replicate bands (bucketListOf ps) →
      ((adds.foldl (fun t a => addSignature t a.1 a.2) s).hash_buckets_list =
        List.replicate bands (bucketListOf (ps ++ addedPaths adds))) := by
  intro adds
  induction adds with
  | nil =>
    intro s ps h0 hb
    simpa [addedPaths] using hb
  | cons a rest ih =>
    intro s ps h0 hb
    rw [List.foldl_cons]
    rcases ha : a.2 with _ | sig
    · have hskip : addSignature s a.1 none = s := rfl
      have hpaths : addedPaths (a :: rest) = addedPaths rest := by
        simp [addedPaths, ha]
      rw [hskip, hpaths]
      exact ih s ps h0 hb
    · have hpaths : addedPaths (a :: rest) = a.1 :: addedPaths rest := by
        simp [addedPaths, ha]
      have hrows : (addSignature s a.1 (some sig)).rows = 0 :=
        (addSignature_config s a.1 (some sig)).2.2.trans h0
      have hbuck : (addSignature s a.1 (some sig)).hash_buckets_list =
          List.replicate bands (bucketListOf (ps ++ [a.1])) := by
        show insertAllBands sig s.rows a.1 0 s.hash_buckets_list = _
        rw [h0, hb, insertAllBands_zero_rows, bucketInsert_bucketListOf]
      rw [hpaths]
      have h2 := ih (addSignature s a.1 (some sig)) (ps ++ [a.1]) hrows hbuck
      rwa [List.append_assoc, List.singleton_append] at h2

/-! ### Evaluating concrete runs (the rationals never reduce by `decide`,
so threshold-0 folds are rewritten into their label-only effect first) -/

theorem processPair_state_char (thr : ℚ) (st : LSH) (pr : String × String)
    (h : thr ≤ (calculateSimilarity st pr.1 pr.2).2.2) :
    processPair thr false st pr = linkPair st pr := by
  unfold processPair linkPair
  dsimp only
  rw [calculateSimilarity_fst, calculateSimilarity_snd_fst, if_pos h]
  simp

theorem foldl_processPair_eq_linkPair (st : LSH)
    (hn : 0 < st.hash_size)
    (hsigs : ∀ p ∈ st.signatures, ∀ q ∈ st.signatures,
      hamming (unpack p.2) (unpack q.2) ≤ st.hash_size ^ 2) :
    ∀ l : List (String × String),
      l.foldl (processPair 0 false) st = l.foldl linkPair st := by
  intro l
  induction l generalizing st with
  | nil => rfl
  | cons pr rest ih =>
    rw [List.foldl_cons, List.foldl_cons,
      processPair_state_char 0 st pr (calculateSimilarity_nonneg st hn hsigs pr.1 pr.2)]
    exact ih (linkPair st pr) hn hsigs

/-- The labels produced by the `cAdds` run at threshold 0: band 0 links
`a`–`x` (label 0) and `y`–`b` (label 1); band 1's bucket `[a, b]` is a
no-op because both are already labeled. -/
theorem cAdds_run_labels :
    (assignLabels (runAdds 2 2 cAdds) 0).labels =
      [("a", 0), ("x", 0), ("y", 1), ("b", 1)] := by
  unfold assignLabels
  rw [processSimilarities_eq_foldl,
    foldl_processPair_eq_linkPair (runAdds 2 2 cAdds) (by decide) (by decide)]
  decide

/-! ### The claims -/

/-- C1 counterexample: in the run `cAdds` at threshold 0, band 1 holds a
bucket whose member list is exactly `["a", "b"]` and `score(a,b) ≥ 0`, yet
after `assign_labels(0)` the two images carry different labels: both were
already labeled (differently) from earlier band-0 buckets, so the pair's
processing changes nothing. -/
theorem C1_counterexample :
    (([false, false], ["a", "b"]) ∈ (runAdds 2 2 cAdds).hash_buckets_list.getD 1 []) ∧
    (0 : ℚ) ≤ (calculateSimilarity (runAdds 2 2 cAdds) "a" "b").2.2 ∧
    dictGet? "a" (assignLabels (runAdds 2 2 cAdds) 0).labels = some 0 ∧
    dictGet? "b" (assignLabels (runAdds 2 2 cAdds) 0).labels = some 1 := by
  refine ⟨by decide,
    calculateSimilarity_nonneg _ (by decide) (by decide) "a" "b", ?_, ?_⟩
  · rw [cAdds_run_labels]
    decide
  · rw [cAdds_run_labels]
    decide

/-- C1 (amended): for any consecutive pair `(A, B)` of the bucket walk — in
particular the single pair of a bucket whose member list is exactly
`[A, B]` — if `score(A,B) ≥ threshold` and `B` is still unlabeled when that
pair is processed, then after `assign_labels(threshold)` both `A` and `B`
are mapped to the same label (this covers `A` having been labeled from an
earlier bucket; it excludes the case where both already carry labels, where
the pair is a no-op). -/
theorem C1_bucket_pair_same_label (st : LSH) (thr : ℚ) (A B : String)
    (l1 l2 : List (String × String))
    (hsplit : allPairs st.hash_buckets_list = l1 ++ (A, B) :: l2)
    (hsim : thr ≤ (calculateSimilarity st A B).2.2)
    (hB : dictGet? B (l1.foldl (processPair thr false) st).labels = none) :
    ∃ ℓ, dictGet? A (assignLabels st thr).labels = some ℓ ∧
         dictGet? B (assignLabels st thr).labels = some ℓ := by
  unfold assignLabels
  rw [processSimilarities_eq_foldl, hsplit, List.foldl_append, List.foldl_cons]
  have hcfg : (l1.foldl (processPair thr false) st).signatures = st.signatures ∧
      (l1.foldl (processPair thr false) st).hash_size = st.hash_size :=
    foldl_pres (P := fun s => s.signatures = st.signatures ∧ s.hash_size = st.hash_size)
      (fun s pr hp => by
        obtain ⟨h1, _, _, _, h5⟩ := processPair_config thr false s pr
        exact ⟨h5.trans hp.1, h1.trans hp.2⟩) l1 st ⟨rfl, rfl⟩
  have hsim1 : thr ≤ (calculateSimilarity (l1.foldl (processPair thr false) st) A B).2.2 := by
    rw [calculateSimilarity_congr hcfg.1 hcfg.2]
    exact hsim
  obtain ⟨ℓ, hA2, hB2⟩ := processPair_links thr false _ A B hsim1 hB
  refine ⟨ℓ, ?_, ?_⟩
  · exact assignRemaining_labels_mono _
      (foldl_pres (P := fun s => dictGet? A s.labels = some ℓ)
        (fun s pr hp => processPair_labels_mono thr false s pr hp) l2 _ hA2)
  · exact assignRemaining_labels_mono _
      (foldl_pres (P := fun s => dictGet? B s.labels = some ℓ)
        (fun s pr hp => processPair_labels_mono thr false s pr hp) l2 _ hB2)

/-- C1 witness: the first pair of `cAdds` at threshold 0. -/
theorem C1_witness :
    dictGet? "a" (assignLabels (runAdds 2 2 cAdds) 0).labels =
      dictGet? "x" (assignLabels (runAdds 2 2 cAdds) 0).labels := by
  obtain ⟨ℓ, h1, h2⟩ := C1_bucket_pair_same_label (runAdds 2 2 cAdds) 0 "a" "x" []
    [("y", "b"), ("a", "b")] (by decide)
    (calculateSimilarity_nonneg _ (by decide) (by decide) "a" "x") (by decide)
  rw [h1, h2]

/-- C2: after `assign_labels`, the returned mapping is defined exactly on
the ids of the signature store (no omissions), and its key list has no
duplicates (each id carries a single label; no double-labeling). -/
theorem C2_labels_partition (hs bands : Nat) (adds : List (String × Option (List Bool)))
    (thr : ℚ) :
    (∀ x, (dictGet? x (assignLabels (runAdds hs bands adds) thr).labels).isSome = true ↔
          (dictGet? x (runAdds hs bands adds).signatures).isSome = true) ∧
    ((assignLabels (runAdds hs bands adds) thr).labels.map Prod.fst).Nodup := by
  have hlabels0 : (runAdds hs bands adds).labels = [] := runAdds_labels hs bands adds
  have hcov : bucketsCovered (runAdds hs bands adds) := runAdds_bucketsCovered hs bands adds
  have hmidsig : (processSimilarities (runAdds hs bands adds) thr false).signatures =
      (runAdds hs bands adds).signatures :=
    (processSimilarities_config (runAdds hs bands adds) thr false).2.1
  constructor
  · intro x
    constructor
    · intro hx
      rw [dictGet?_isSome_iff] at hx
      unfold assignLabels at hx
      rw [dictGet?_isSome_iff]
      rcases assignRemaining_keys _ hx with h1 | h1
      · rw [hmidsig] at h1
        exact h1
      · rcases processSimilarities_keys (runAdds hs bands adds) thr false hcov h1 with h2 | h2
        · exact h2
        · rw [hlabels0] at h2
          cases h2
    · intro hx
      rw [dictGet?_isSome_iff] at hx
      unfold assignLabels
      refine assignRemaining_covers _ ?_
      rw [hmidsig]
      exact hx
  · unfold assignLabels
    refine assignRemaining_nodup_keys _
      (processSimilarities_nodup_keys (runAdds hs bands adds) thr false ?_)
    rw [hlabels0]
    exact List.nodup_nil

/-- C3: the pipeline is a pure function of the configuration and the ordered
add sequence: two runs over identical inputs give pointwise-identical label
mappings, hence partitions grouping exactly the same images together. -/
theorem C3_determinism (hs bands : Nat) (thr : ℚ)
    (adds1 adds2 : List (String × Option (List Bool))) (h : adds1 = adds2)
    (x y : String) :
    dictGet? x (assignLabels (runAdds hs bands adds1) thr).labels =
      dictGet? x (assignLabels (runAdds hs bands adds2) thr).labels ∧
    ((dictGet? x (assignLabels (runAdds hs bands adds1) thr).labels =
      dictGet? y (assignLabels (runAdds hs bands adds1) thr).labels) ↔
     (dictGet? x (assignLabels (runAdds hs bands adds2) thr).labels =
      dictGet? y (assignLabels (runAdds hs bands adds2) thr).labels)) := by
  subst h
  exact ⟨rfl, Iff.rfl⟩

/-- C3 witness at the `cAdds` run. -/
theorem C3_witness :
    dictGet? "a" (assignLabels (runAdds 2 2 cAdds) 0).labels =
      dictGet? "a" (assignLabels (runAdds 2 2 cAdds) 0).labels :=
  (C3_determinism 2 2 0 cAdds cAdds rfl "a" "b").1

/-- C4 counterexample: for `hash_size = 1` the valid signature `[true]` of
length `1² = 1` is stored packed, but its unpack (what the Scorer reads
back) is `[true]` followed by 7 zero padding bits, not `[true]`. -/
theorem C4_counterexample :
    dictGet? "a" (addSignature (LSH.init 1 1) "a" (some [true])).signatures =
      some (pack [true]) ∧
    ([true] : List Bool).length = 1 ^ 2 ∧
    unpack (pack [true]) ≠ [true] := by
  refine ⟨by decide, by decide, by decide⟩

/-- C4 (amended): storing a signature of length `hash_size²` and unpacking
the packed stored form returns the signature followed by
`(8 − hash_size² % 8) % 8` zero padding bits; the read-back equals the
original exactly when `hash_size²` is a multiple of 8. -/
theorem C4_roundtrip_padded (st : LSH) (id : String) (hs : Nat) (s : List Bool)
    (hlen : s.length = hs ^ 2) :
    dictGet? id (addSignature st id (some s)).signatures = some (pack s) ∧
    unpack (pack s) = s ++ List.replicate ((8 - hs ^ 2 % 8) % 8) false ∧
    (hs ^ 2 % 8 = 0 → unpack (pack s) = s) := by
  refine ⟨?_, ?_, ?_⟩
  · show dictGet? id (dictInsert id (pack s) st.signatures) = some (pack s)
    exact dictGet?_dictInsert_self _ _ _
  · rw [unpack_pack, hlen]
  · intro h8
    rw [unpack_pack, hlen, h8]
    simp

/-- C4 witness: `hash_size = 4` (so `16` bits, a whole number of bytes). -/
theorem C4_witness :
    dictGet? "a" (addSignature (LSH.init 4 2) "a"
        (some (List.replicate 16 true))).signatures = some (pack (List.replicate 16 true)) ∧
    unpack (pack (List.replicate 16 true)) = List.replicate 16 true := by
  obtain ⟨h1, h2, h3⟩ := C4_roundtrip_padded (LSH.init 4 2) "a" 4
    (List.replicate 16 true) (by decide)
  exact ⟨h1, h3 (by decide)⟩

/-- C5: for stored signatures of length `hash_size²`, the score is
`(hash_size² − hamming) / hash_size²`, lies in `[0, 1]`, equals 1 iff the
two signatures are bit-identical, and `score(a, a) = 1`. -/
theorem C5_similarity_props (st : LSH) (a b : String) (sa sb : List Bool)
    (ha : dictGet? a st.signatures = some (pack sa))
    (hb : dictGet? b st.signatures = some (pack sb))
    (hla : sa.length = st.hash_size ^ 2) (hlb : sb.length = st.hash_size ^ 2)
    (hn : 0 < st.hash_size) :
    calculateSimilarity st a b =
      (a, b, ((st.hash_size ^ 2 : ℚ) - (hamming sa sb : Nat)) / (st.hash_size ^ 2 : ℚ)) ∧
    0 ≤ (calculateSimilarity st a b).2.2 ∧
    (calculateSimilarity st a b).2.2 ≤ 1 ∧
    ((calculateSimilarity st a b).2.2 = 1 ↔ sa = sb) ∧
    (calculateSimilarity st a a).2.2 = 1 := by
  have hlen : sa.length = sb.length := hla.trans hlb.symm
  have hchar := calculateSimilarity_char st a b ha hb hlen
  have hd_le : hamming sa sb ≤ st.hash_size ^ 2 := hla ▸ hamming_le sa sb
  have hpos : (0 : ℚ) < (st.hash_size ^ 2 : ℚ) := by
    exact_mod_cast Nat.pos_pow_of_pos 2 hn
  have hne : ((st.hash_size ^ 2 : ℚ)) ≠ 0 := ne_of_gt hpos
  refine ⟨hchar, ?_, ?_, ?_, ?_⟩
  · rw [hchar]
    dsimp only
    apply div_nonneg _ hpos.le
    rw [sub_nonneg]
    exact_mod_cast hd_le
  · rw [hchar]
    dsimp only
    rw [div_le_one hpos]
    have hnn : (0 : ℚ) ≤ ((hamming sa sb : Nat) : ℚ) := Nat.cast_nonneg _
    linarith
  · rw [hchar]
    dsimp only
    rw [div_eq_one_iff_eq hne, sub_eq_self]
    constructor
    · intro h0
      have h1 : hamming sa sb = 0 := by exact_mod_cast h0
      exact (hamming_eq_zero_iff sa sb hlen).mp h1
    · intro h0
      have h1 : hamming sa sb = 0 := by rw [h0, hamming_self]
      rw [h1]
      exact Nat.cast_zero
  · have hchar2 := calculateSimilarity_char st a a ha ha rfl
    rw [hchar2]
    dsimp only
    rw [hamming_self, Nat.cast_zero, sub_zero, div_self hne]

/-- C5 witness: the two stored 4-bit signatures of `wAdds`. -/
theorem C5_witness :
    (calculateSimilarity (runAdds 2 1 wAdds) "a" "a").2.2 = 1 ∧
    0 ≤ (calculateSimilarity (runAdds 2 1 wAdds) "a" "b").2.2 := by
  obtain ⟨h1, h2, h3, h4, h5⟩ := C5_similarity_props (runAdds 2 1 wAdds) "a" "b"
    [true, false, true, false] [true, false, false, false]
    (by decide) (by decide) (by decide) (by decide) (by decide)
  exact ⟨h5, h2⟩

/-- C6: when either id of a scored pair is missing from the signature store,
`calculate_similarity` returns score `0.0` and takes the logging branch
(`KeyError` caught, not raised), and the pair walk continues with the
remaining pairs from the resulting state. -/
theorem C6_missing_signature (st : LSH) (a b : String) (thr : ℚ) (c : Bool)
    (h : dictGet? a st.signatures = none ∨ dictGet? b st.signatures = none) :
    calculateSimilarityLog st a b = ((a, b, 0), true) ∧
    (∀ (l2 : List (String × String)) (s : LSH),
      ((a, b) :: l2).foldl (processPair thr c) s =
        l2.foldl (processPair thr c) (processPair thr c s (a, b))) := by
  refine ⟨?_, fun l2 s => rfl⟩
  unfold calculateSimilarityLog
  rcases hA : dictGet? a st.signatures with _ | va
  · rcases hB : dictGet? b st.signatures with _ | vb <;> rfl
  · rcases hB : dictGet? b st.signatures with _ | vb
    · rfl
    · rcases h with h | h
      · rw [hA] at h
        cases h
      · rw [hB] at h
        cases h

/-- C6 witness: scoring a pair whose second id was never added. -/
theorem C6_witness :
    calculateSimilarityLog (runAdds 2 2 cAdds) "a" "zzz" = (("a", "zzz", 0), true) :=
  (C6_missing_signature (runAdds 2 2 cAdds) "a" "zzz" 0 false (Or.inr (by decide))).1

/-- C7 counterexample: at threshold 0, images `a` and `b` share the band-1
bucket `[a, b]` of the `cAdds` run, yet they end the run with different
labels — both were labeled from different band-0 buckets first, and the
consecutive-pair scan never relabels. -/
theorem C7_counterexample :
    (([false, false], ["a", "b"]) ∈ (runAdds 2 2 cAdds).hash_buckets_list.getD 1 []) ∧
    dictGet? "a" (assignLabels (runAdds 2 2 cAdds) 0).labels ≠
      dictGet? "b" (assignLabels (runAdds 2 2 cAdds) 0).labels := by
  refine ⟨by decide, ?_⟩
  rw [cAdds_run_labels]
  decide

/-- C7 (amended): at threshold 0 (with valid stored signatures, so every
score is ≥ 0), every multi-member bucket all of whose members are still
unlabeled when the bucket is visited collapses into one label via
consecutive-pair chaining; members labeled from earlier buckets keep their
earlier labels instead. -/
theorem C7_bucket_collapses (st : LSH) (members : List String)
    (L1 L2 : List (List String))
    (hsplit : allBuckets st.hash_buckets_list = L1 ++ members :: L2)
    (hlen : 1 < members.length)
    (hn : 0 < st.hash_size)
    (hsigs : ∀ p ∈ st.signatures, ∀ q ∈ st.signatures,
      hamming (unpack p.2) (unpack q.2) ≤ st.hash_size ^ 2)
    (hunl : ∀ m ∈ members,
      dictGet? m (L1.foldl (processBucket 0 false) st).labels = none) :
    ∃ ℓ, ∀ m ∈ members, dictGet? m (assignLabels st 0).labels = some ℓ := by
  unfold assignLabels
  rw [processSimilarities_eq_foldl_buckets, hsplit, List.foldl_append, List.foldl_cons]
  have hnn0 : ∀ a b, 0 ≤ (calculateSimilarity st a b).2.2 :=
    calculateSimilarity_nonneg st hn hsigs
  have hcfg : (L1.foldl (processBucket 0 false) st).signatures = st.signatures ∧
      (L1.foldl (processBucket 0 false) st).hash_size = st.hash_size :=
    foldl_pres (P := fun s => s.signatures = st.signatures ∧ s.hash_size = st.hash_size)
      (fun s m hp => by
        obtain ⟨h1, h5⟩ := processBucket_config 0 false s m
        exact ⟨h5.trans hp.1, h1.trans hp.2⟩) L1 st ⟨rfl, rfl⟩
  have hnn1 : ∀ a b, 0 ≤ (calculateSimilarity (L1.foldl (processBucket 0 false) st) a b).2.2 := by
    intro a b
    rw [calculateSimilarity_congr hcfg.1 hcfg.2]
    exact hnn0 a b
  obtain ⟨ℓ, hall⟩ :=
    processBucket_chains (L1.foldl (processBucket 0 false) st) members false hlen hnn1 hunl
  refine ⟨ℓ, fun m hm => ?_⟩
  refine assignRemaining_labels_mono _ ?_
  exact foldl_pres (P := fun t => dictGet? m t.labels = some ℓ)
    (fun t mm hp => processBucket_labels_mono 0 false t mm hp) L2 _ (hall m hm)

/-- C7 witness: the first bucket `[a, x]` of the `cAdds` run collapses. -/
theorem C7_witness :
    dictGet? "a" (assignLabels (runAdds 2 2 cAdds) 0).labels =
      dictGet? "x" (assignLabels (runAdds 2 2 cAdds) 0).labels := by
  obtain ⟨ℓ, hall⟩ := C7_bucket_collapses (runAdds 2 2 cAdds) ["a", "x"] []
    [["y", "b"], ["a", "b"], ["x"], ["y"]]
    (by decide) (by decide) (by decide) (by decide) (by decide)
  rw [hall "a" (by decide), hall "x" (by decide)]

/-- C8: a missing input directory or an empty filtered image list makes
`find_duplicates` return the empty label mapping and empty score list; the
raised `ValueError` is caught inside, nothing escapes. -/
theorem C8_empty_input (input_dir : String) (thr : ℚ) (hs bands : Nat) (gen : Bool)
    (listing : Option (List String)) (calcSig : String → Option (List Bool))
    (h : listing = none ∨ ∃ fs, listing = some fs ∧ fs.filter hasImageExt = []) :
    find_duplicates input_dir thr hs bands gen listing calcSig = ([], []) := by
  rcases h with h | ⟨fs, hfs, hfilter⟩
  · subst h
    rfl
  · subst hfs
    unfold find_duplicates get_image_files
    dsimp only
    rw [hfilter]
    rfl

/-- C8 witness: a missing directory. -/
theorem C8_witness :
    find_duplicates "data" (8 / 10 : ℚ) 16 16 true none (fun _ => none) = ([], []) :=
  C8_empty_input "data" (8 / 10) 16 16 true none (fun _ => none) (Or.inl rfl)

/-- C9: through a whole `assign_labels` run, an already-labeled id keeps
exactly its label (Labeled is terminal), the fresh-label counter never
decreases, and if every existing label is below the counter then every
label after the run is below the final counter — so every fresh label drawn
from the counter is strictly greater than all labels issued before it. -/
theorem C9_label_stability (st : LSH) (thr : ℚ) (x : String) (ℓ : Nat)
    (hx : dictGet? x st.labels = some ℓ)
    (hbound : labelsBounded st.labels st.label_counter) :
    dictGet? x (assignLabels st thr).labels = some ℓ ∧
    st.label_counter ≤ (assignLabels st thr).label_counter ∧
    labelsBounded (assignLabels st thr).labels (assignLabels st thr).label_counter := by
  unfold assignLabels
  refine ⟨?_, ?_, ?_⟩
  · exact assignRemaining_labels_mono _ (processSimilarities_labels_mono st thr false hx)
  · exact Nat.le_trans (processSimilarities_counter_mono st thr false)
      (assignRemaining_counter_mono _)
  · exact assignRemaining_bounded _ (processSimilarities_bounded st thr false hbound)

/-- C9 witness: a state with `a ↦ 0` and counter 1. -/
theorem C9_witness :
    dictGet? "a" (assignLabels stW 0).labels = some 0 ∧
    stW.label_counter ≤ (assignLabels stW 0).label_counter := by
  obtain ⟨h1, h2, h3⟩ := C9_label_stability stW 0 "a" 0 (by decide)
    (by unfold labelsBounded; decide)
  exact ⟨h1, h2⟩

/-- C10: with `bands` not dividing `hash_size²`, construction still derives
`rows = ⌊hash_size² / bands⌋`, insertion consults only the first
`bands · rows` bit positions of a signature for bucket keys, and when
`bands > hash_size²` every band slice is empty, so each band keeps a single
bucket (keyed by the empty slice) holding every inserted id in order. -/
theorem C10_uneven_bands (hs b : Nat) (adds : List (String × Option (List Bool)))
    (st : LSH) (p : String) (sig sig' : List Bool)
    (hlenb : st.hash_buckets_list.length = st.bands)
    (htake : sig.take (st.bands * st.rows) = sig'.take (st.bands * st.rows))
    (hdeg : hs ^ 2 < b) :
    (LSH.init hs b).rows = hs ^ 2 / b ∧
    (addSignature st p (some sig)).hash_buckets_list =
      (addSignature st p (some sig')).hash_buckets_list ∧
    (runAdds hs b adds).hash_buckets_list =
      List.replicate b (bucketListOf (addedPaths adds)) := by
  refine ⟨rfl, ?_, ?_⟩
  · show insertAllBands sig st.rows p 0 st.hash_buckets_list =
      insertAllBands sig' st.rows p 0 st.hash_buckets_list
    exact insertAllBands_congr htake st.hash_buckets_list 0 (by omega)
  · unfold runAdds
    have h0 : (LSH.init hs b).rows = 0 := Nat.div_eq_of_lt hdeg
    have hb0 : (LSH.init hs b).hash_buckets_list =
        List.replicate b (bucketListOf []) := rfl
    have h2 := runAdds_zero_rows_aux b adds (LSH.init hs b) [] h0 hb0
    rwa [List.nil_append] at h2

/-- C10 witness: `hash_size = 2`, `bands = 3` (uneven) and `bands = 5`
(degenerate, `4 < 5`). -/
theorem C10_witness :
    (addSignature (LSH.init 2 3) "p" (some [true, true, true, true])).hash_buckets_list =
      (addSignature (LSH.init 2 3) "p" (some [true, true, true, false])).hash_buckets_list ∧
    (runAdds 2 5 cAdds).hash_buckets_list =
      List.replicate 5 (bucketListOf (addedPaths cAdds)) := by
  obtain ⟨h1, h2, h3⟩ := C10_uneven_bands 2 5 cAdds (LSH.init 2 3) "p"
    [true, true, true, true] [true, true, true, false]
    (by decide) (by decide) (by decide)
  exact ⟨h2, h3⟩

end Couckoo
